import Mathlib

/-!
Verification of the manual multipart/form-data parser of Telegraph-Image
(functions/utils/multipart-parser.js).  JavaScript strings are modelled as
lists of unicode scalar values (`List Char`), byte buffers as `List Nat`
(each entry a byte value).  Each definition mirrors one function of the
source file; the loop of `parseMultipartParts` is given explicit fuel and
a fuel-independence theorem establishes its termination.
-/

namespace Multipart

/-- First index `i` (scanning `count` candidates upward from `start`)
at which the predicate holds; `none` when no candidate matches.
Shared scanning skeleton for the byte search and the regex searches. -/
def firstIdx (p : Nat → Bool) : Nat → Nat → Option Nat
  | 0, _ => none
  | count + 1, i => if p i then some i else firstIdx p count (i + 1)

theorem firstIdx_eq_some {p : Nat → Bool} {c i r : Nat}
    (h : firstIdx p c i = some r) :
    i ≤ r ∧ r < i + c ∧ p r = true ∧ ∀ j, i ≤ j → j < r → p j = false := by
  induction c generalizing i with
  | zero => simp [firstIdx] at h
  | succ c ih =>
    rw [firstIdx] at h
    by_cases hp : p i = true
    · simp [hp] at h
      subst h
      exact ⟨Nat.le_refl _, by omega, hp, fun j h1 h2 => by omega⟩
    · simp [hp] at h
      obtain ⟨h1, h2, h3, h4⟩ := ih h
      refine ⟨by omega, by omega, h3, fun j hj1 hj2 => ?_⟩
      rcases Nat.eq_or_lt_of_le hj1 with rfl | hlt
      · exact Bool.not_eq_true _ ▸ (by simpa using hp)
      · exact h4 j hlt hj2

theorem firstIdx_eq_none {p : Nat → Bool} {c i : Nat}
    (h : ∀ j, i ≤ j → j < i + c → p j = false) :
    firstIdx p c i = none := by
  induction c generalizing i with
  | zero => rfl
  | succ c ih =>
    rw [firstIdx]
    have hi : p i = false := h i (Nat.le_refl _) (by omega)
    simp [hi]
    exact ih fun j h1 h2 => h j (by omega) (by omega)

theorem firstIdx_intro {p : Nat → Bool} {c i r : Nat}
    (hr : p r = true) (hlo : i ≤ r) (hhi : r < i + c)
    (hmin : ∀ j, i ≤ j → j < r → p j = false) :
    firstIdx p c i = some r := by
  induction c generalizing i with
  | zero => omega
  | succ c ih =>
    rw [firstIdx]
    rcases Nat.eq_or_lt_of_le hlo with rfl | hlt
    · simp [hr]
    · have hi : p i = false := hmin i (Nat.le_refl _) hlt
      simp [hi]
      exact ih (by omega) (by omega) fun j h1 h2 => hmin j (by omega) h2

/-- Does the byte sequence `seq` occur in `data` at index `i`?
(The elementwise comparison loop of the source's findSequence.) -/
def seqMatchAt (data seq : List Nat) (i : Nat) : Bool :=
  decide ((data.drop i).take seq.length = seq)

/-- Source findSequence: scan indices from startPos to
data.length - seq.length inclusive, returning the first full match
(-1, modelled as none, when there is none). -/
def findSequence (data seq : List Nat) (startPos : Nat) : Option Nat :=
  firstIdx (seqMatchAt data seq) (data.length + 1 - (seq.length + startPos)) startPos

/-- Source findBoundary is findSequence applied to the boundary bytes. -/
def findBoundary (data boundary : List Nat) (startPos : Nat) : Option Nat :=
  findSequence data boundary startPos

theorem seqMatchAt_true_le {data seq : List Nat} {i : Nat} (hne : seq ≠ [])
    (h : seqMatchAt data seq i = true) : i + seq.length ≤ data.length := by
  unfold seqMatchAt at h
  rw [decide_eq_true_eq] at h
  have hlen : ((data.drop i).take seq.length).length = seq.length := by rw [h]
  have hne' : seq.length ≠ 0 := by
    intro h0
    exact hne (List.eq_nil_of_length_eq_zero h0)
  rw [List.length_take, List.length_drop] at hlen
  omega

theorem findSequence_eq_some {data seq : List Nat} {s r : Nat}
    (h : findSequence data seq s = some r) :
    s ≤ r ∧ seqMatchAt data seq r = true ∧
      ∀ j, s ≤ j → j < r → seqMatchAt data seq j = false := by
  obtain ⟨h1, _, h3, h4⟩ := firstIdx_eq_some h
  exact ⟨h1, h3, h4⟩

theorem findSequence_intro {data seq : List Nat} {s r : Nat} (hne : seq ≠ [])
    (hr : seqMatchAt data seq r = true) (hlo : s ≤ r)
    (hmin : ∀ j, s ≤ j → j < r → seqMatchAt data seq j = false) :
    findSequence data seq s = some r := by
  have hle := seqMatchAt_true_le hne hr
  exact firstIdx_intro hr hlo (by omega) hmin

theorem findSequence_eq_none {data seq : List Nat} {s : Nat}
    (h : ∀ j, s ≤ j → seqMatchAt data seq j = false) :
    findSequence data seq s = none :=
  firstIdx_eq_none fun j h1 _ => h j h1

/-- Whitespace characters removed by the JavaScript String.prototype.trim. -/
def isJsSpace (c : Char) : Bool :=
  c ∈ ([' ', '\t', '\n', '\x0B', '\x0C', '\r', ' ', ' ', ' ',
        ' ', ' ', ' ', ' ', ' ', ' ', ' ',
        ' ', ' ', ' ', ' ', ' ', ' ', ' ',
        '　', '﻿'] : List Char)

/-- JavaScript String.prototype.trim on a list of characters. -/
def jsTrim (l : List Char) : List Char :=
  ((l.dropWhile isJsSpace).reverse.dropWhile isJsSpace).reverse

/-- JavaScript String.prototype.toLowerCase (scalar-wise). -/
def jsToLower (l : List Char) : List Char :=
  l.map Char.toLower

/-- JavaScript String.prototype.includes: substring search. -/
def jsIncludes (s pat : List Char) : Bool :=
  (firstIdx (fun i => pat.isPrefixOf (s.drop i)) (s.length + 1) 0).isSome

/-- One position of the regex scan for the pattern key ++ quoted nonempty
run: the literal key matches at i, the greedy run of non-quote characters
after it is nonempty, and a closing character (necessarily a quote, by
maximality of the run) follows. -/
def capMatchAt (key s : List Char) (i : Nat) : Bool :=
  key.isPrefixOf (s.drop i) &&
  !(((s.drop i).drop key.length).takeWhile (fun c => c != '"')).isEmpty &&
  decide (i + key.length +
    (((s.drop i).drop key.length).takeWhile (fun c => c != '"')).length < s.length)

/-- JavaScript s.match of a regex of the shape key("[^"]+") (as used for
the name and filename attributes), returning the first capture group of
the leftmost match. -/
def jsMatchCapture (key s : List Char) : Option (List Char) :=
  (firstIdx (capMatchAt key s) s.length 0).map
    (fun i => ((s.drop i).drop key.length).takeWhile (fun c => c != '"'))

/-- One position of the case-insensitive scan for boundary=([^;]+). -/
def boundaryMatchAt (s : List Char) (i : Nat) : Bool :=
  (((s.drop i).take 9).map Char.toLower == "boundary=".toList) &&
  !(((s.drop i).drop 9).takeWhile (fun c => c != ';')).isEmpty

/-- JavaScript contentType.match of boundary=([^;]+) with the i flag:
first capture group of the leftmost match. -/
def jsBoundaryMatch (s : List Char) : Option (List Char) :=
  (firstIdx (boundaryMatchAt s) s.length 0).map
    (fun i => ((s.drop i).drop 9).takeWhile (fun c => c != ';'))

def isQuote (c : Char) : Bool :=
  c == '"' || c == '\''

/-- JavaScript replace of the anchored global regex removing one leading
and one trailing single or double quote. -/
def stripQuotes (l : List Char) : List Char :=
  let l1 := match l with
    | [] => []
    | c :: rest => if isQuote c then rest else c :: rest
  match l1.getLast? with
  | some c => if isQuote c then l1.dropLast else l1
  | none => l1

/-- A piece produced by splitting on a newline had its optional preceding
carriage return consumed by the regex separator. -/
def dropTrailingCR (l : List Char) : List Char :=
  match l.getLast? with
  | some c => if c == '\r' then l.dropLast else l
  | none => l

/-- JavaScript headerText.split of the regex matching an optional
carriage return followed by a newline: each separator is a bare newline
or a carriage return immediately followed by a newline. -/
def jsSplitLines : List Char → List (List Char)
  | [] => [[]]
  | '\r' :: '\n' :: rest => [] :: jsSplitLines rest
  | '\n' :: rest => [] :: jsSplitLines rest
  | c :: rest =>
    match jsSplitLines rest with
    | l :: ls => (c :: l) :: ls
    | [] => [[c]]

/-- One line of the source parseHeaders loop: locate the first colon,
require its index positive, and produce the lower-cased trimmed key with
the trimmed value. -/
def parseHeaderLine (line : List Char) : Option (List Char × List Char) :=
  match line.findIdx? (fun c => c == ':') with
  | some colonPos =>
    if 0 < colonPos then
      some (jsToLower (jsTrim (line.take colonPos)), jsTrim (line.drop (colonPos + 1)))
    else none
  | none => none

/-- Source parseHeaders: the header object is modelled as the list of all
(key, value) assignments in order; indexing it is objGet below, where the
last assignment to a key wins, as for a JavaScript object. -/
def parseHeaders (headerText : List Char) : List (List Char × List Char) :=
  (jsSplitLines headerText).filterMap parseHeaderLine

/-- JavaScript object indexing for the header table: the value of the
last assignment to the key, if any. -/
def objGet (hs : List (List Char × List Char)) (k : List Char) : Option (List Char) :=
  ((hs.filter (fun kv => kv.1 == k)).getLast?).map (fun kv => kv.2)

/-- The replacement character emitted by a non-fatal TextDecoder on
malformed input. -/
def replChar : Char := '�'

/-- WHATWG UTF-8 decoder with U+FFFD replacement (TextDecoder with
fatal false): on an invalid continuation byte the offending byte is
reprocessed from the start state. -/
def utf8DecodeLoop : List Nat → List Char
  | [] => []
  | b :: rest =>
    if b < 0x80 then Char.ofNat b :: utf8DecodeLoop rest
    else if b < 0xC2 then replChar :: utf8DecodeLoop rest
    else if b < 0xE0 then
      match rest with
      | [] => [replChar]
      | b1 :: rest1 =>
        if 0x80 ≤ b1 ∧ b1 ≤ 0xBF then
          Char.ofNat ((b - 0xC0) * 0x40 + (b1 - 0x80)) :: utf8DecodeLoop rest1
        else replChar :: utf8DecodeLoop (b1 :: rest1)
    else if b < 0xF0 then
      match rest with
      | [] => [replChar]
      | b1 :: rest1 =>
        if (if b = 0xE0 then 0xA0 else 0x80) ≤ b1 ∧ b1 ≤ (if b = 0xED then 0x9F else 0xBF) then
          match rest1 with
          | [] => [replChar]
          | b2 :: rest2 =>
            if 0x80 ≤ b2 ∧ b2 ≤ 0xBF then
              Char.ofNat ((b - 0xE0) * 0x1000 + (b1 - 0x80) * 0x40 + (b2 - 0x80)) ::
                utf8DecodeLoop rest2
            else replChar :: utf8DecodeLoop (b2 :: rest2)
        else replChar :: utf8DecodeLoop (b1 :: rest1)
    else if b < 0xF5 then
      match rest with
      | [] => [replChar]
      | b1 :: rest1 =>
        if (if b = 0xF0 then 0x90 else 0x80) ≤ b1 ∧ b1 ≤ (if b = 0xF4 then 0x8F else 0xBF) then
          match rest1 with
          | [] => [replChar]
          | b2 :: rest2 =>
            if 0x80 ≤ b2 ∧ b2 ≤ 0xBF then
              match rest2 with
              | [] => [replChar]
              | b3 :: rest3 =>
                if 0x80 ≤ b3 ∧ b3 ≤ 0xBF then
                  Char.ofNat ((b - 0xF0) * 0x40000 + (b1 - 0x80) * 0x1000 +
                      (b2 - 0x80) * 0x40 + (b3 - 0x80)) :: utf8DecodeLoop rest3
                else replChar :: utf8DecodeLoop (b3 :: rest3)
            else replChar :: utf8DecodeLoop (b2 :: rest2)
        else replChar :: utf8DecodeLoop (b1 :: rest1)
    else replChar :: utf8DecodeLoop rest

/-- TextDecoder for utf-8 with default options also removes a leading
byte order mark. -/
def utf8Decode (bytes : List Nat) : List Char :=
  if bytes.take 3 = [0xEF, 0xBB, 0xBF] then utf8DecodeLoop (bytes.drop 3)
  else utf8DecodeLoop bytes

/-- UTF-8 encoding of one scalar value (TextEncoder). -/
def utf8EncodeChar (c : Char) : List Nat :=
  let n := c.toNat
  if n < 0x80 then [n]
  else if n < 0x800 then [0xC0 + n / 0x40, 0x80 + n % 0x40]
  else if n < 0x10000 then [0xE0 + n / 0x1000, 0x80 + n / 0x40 % 0x40, 0x80 + n % 0x40]
  else [0xF0 + n / 0x40000, 0x80 + n / 0x1000 % 0x40, 0x80 + n / 0x40 % 0x40, 0x80 + n % 0x40]

/-- TextEncoder on a whole string. -/
def utf8Encode : List Char → List Nat
  | [] => []
  | c :: cs => utf8EncodeChar c ++ utf8Encode cs

/-- One parsed part: field name, optional filename, optional declared
content type, and the raw payload bytes. -/
structure Part where
  name : List Char
  filename : Option (List Char)
  contentType : Option (List Char)
  data : List Nat
deriving DecidableEq, Repr

/-- The JavaScript expression headers x or-else null: an empty string is
falsy and collapses to null. -/
def jsOrNull (o : Option (List Char)) : Option (List Char) :=
  match o with
  | some v => if v = [] then none else some v
  | none => none

/-- The JavaScript expression x or-else d for strings. -/
def jsOr (o : Option (List Char)) (d : List Char) : List Char :=
  match o with
  | some v => if v = [] then d else v
  | none => d

/-- Source parsePart: split the block at the first CRLFCRLF, strip one
trailing CRLF from the payload, decode and parse the header block, and
require a truthy content-disposition value. -/
def parsePart (partData : List Nat) : Option Part :=
  match findSequence partData [13, 10, 13, 10] 0 with
  | none => none
  | some headerEndPos =>
    let headerBytes := partData.take headerEndPos
    let contentBytes := partData.drop (headerEndPos + 4)
    let contentEnd :=
      if 2 ≤ contentBytes.length ∧
          contentBytes.getD (contentBytes.length - 2) 0 = 13 ∧
          contentBytes.getD (contentBytes.length - 1) 0 = 10 then
        contentBytes.length - 2
      else contentBytes.length
    let actualContent := contentBytes.take contentEnd
    let headers := parseHeaders (utf8Decode headerBytes)
    match objGet headers ("content-disposition".toList) with
    | none => none
    | some contentDisposition =>
      if contentDisposition = [] then none
      else
        some
          { name := (jsMatchCapture ("name=\"".toList) contentDisposition).getD []
            filename := jsMatchCapture ("filename=\"".toList) contentDisposition
            contentType := jsOrNull (objGet headers ("content-type".toList))
            data := actualContent }

/-- The CRLF skip at the top of the parseMultipartParts loop. -/
def skipPos (data : List Nat) (position : Nat) : Nat :=
  if data.getD position 0 = 13 ∧ data.getD (position + 1) 0 = 10 then position + 2
  else position

/-- Append a successfully parsed part to the (reversed) accumulator. -/
def pushPart (o : Option Part) (acc : List Part) : List Part :=
  match o with
  | some p => p :: acc
  | none => acc

/-- The while loop of parseMultipartParts, with explicit fuel.  Each
iteration moves the cursor past the next boundary, so fuel
data.length + 1 always suffices; the fuel-independence theorem for C9
makes this precise. -/
def partsLoopFuel (data bb : List Nat) : Nat → Nat → List Part → List Part
  | 0, _, acc => acc.reverse
  | fuel + 1, position, acc =>
    if position < data.length then
      let p1 := skipPos data position
      match findSequence data bb p1 with
      | none => acc.reverse
      | some nextBoundaryPos =>
        let acc1 := pushPart (parsePart ((data.take nextBoundaryPos).drop p1)) acc
        let p2 := nextBoundaryPos + bb.length
        if data.getD p2 0 = 45 ∧ data.getD (p2 + 1) 0 = 45 then acc1.reverse
        else partsLoopFuel data bb fuel p2 acc1
    else acc.reverse

/-- Source parseMultipartParts. -/
def parseMultipartParts (data : List Nat) (boundary : List Char) : List Part :=
  let boundaryBytes := utf8Encode ('-' :: '-' :: boundary)
  match findBoundary data boundaryBytes 0 with
  | none => []
  | some p0 => partsLoopFuel data boundaryBytes (data.length + 1) (p0 + boundaryBytes.length) []

/-- One entry of the FormData object built by parseMultipartFormData:
either a plain string field or a file with filename, declared type and
raw bytes. -/
inductive FormEntry where
  | field : List Char → List Char → FormEntry
  | file : List Char → List Char → List Char → List Nat → FormEntry
deriving DecidableEq, Repr

/-- The FormData construction loop of parseMultipartFormData: parts with
a truthy filename become files (with default content type), all others
become string fields holding the UTF-8 decoded payload. -/
def buildFormData (parts : List Part) : List FormEntry :=
  parts.map fun part =>
    match part.filename with
    | some fn =>
      if fn = [] then FormEntry.field part.name (utf8Decode part.data)
      else FormEntry.file part.name fn (jsOr part.contentType ("application/octet-stream".toList)) part.data
    | none => FormEntry.field part.name (utf8Decode part.data)

/-- The two inputs the parser reads from the request: the Content-Type
header (absent modelled as none) and the raw body bytes. -/
structure RawRequest where
  contentType : Option (List Char)
  body : List Nat

/-- Source parseMultipartFormData: the content type must contain
multipart/form-data and a boundary parameter; the boundary value is
trimmed and stripped of surrounding quotes; the parts are then converted
to FormData entries.  Errors are thrown messages. -/
def parseMultipartFormData (request : RawRequest) : Except (List Char) (List FormEntry) :=
  match request.contentType with
  | none => Except.error ("Content-Type must be multipart/form-data".toList)
  | some contentType =>
    if jsIncludes contentType ("multipart/form-data".toList) = false then
      Except.error ("Content-Type must be multipart/form-data".toList)
    else
      match jsBoundaryMatch contentType with
      | none => Except.error ("No boundary found in Content-Type".toList)
      | some raw =>
        let boundary := stripQuotes (jsTrim raw)
        Except.ok (buildFormData (parseMultipartParts request.body boundary))

/-! ### Shared helper lemmas -/

theorem skipPos_ge (data : List Nat) (p : Nat) : p ≤ skipPos data p := by
  unfold skipPos
  split <;> omega

theorem seqMatchAt_shift (pre suf seq : List Nat) (k : Nat) :
    seqMatchAt (pre ++ suf) seq (pre.length + k) = seqMatchAt suf seq k := by
  unfold seqMatchAt
  rw [List.drop_append]

theorem seqMatchAt_confine {a b seq : List Nat} {k : Nat}
    (h : k + seq.length ≤ a.length) :
    seqMatchAt (a ++ b) seq k = seqMatchAt a seq k := by
  unfold seqMatchAt
  rw [List.drop_append_of_le_length (by omega),
    List.take_append_of_le_length (by simp [List.length_drop]; omega)]

theorem seqMatchAt_here (pre rest seq : List Nat) :
    seqMatchAt (pre ++ (seq ++ rest)) seq pre.length = true := by
  unfold seqMatchAt
  rw [List.drop_left, List.take_append_of_le_length (Nat.le_refl _), List.take_length,
    decide_eq_true_eq]

theorem getD_append_right (pre suf : List Nat) (k : Nat) :
    (pre ++ suf).getD (pre.length + k) 0 = suf.getD k 0 := by
  simp only [List.getD_eq_getElem?_getD, List.getElem?_append_right (Nat.le_add_right _ k),
    Nat.add_sub_cancel_left]

theorem getD_append_left {pre : List Nat} (suf : List Nat) {k : Nat} (h : k < pre.length) :
    (pre ++ suf).getD k 0 = pre.getD k 0 := by
  simp only [List.getD_eq_getElem?_getD, List.getElem?_append_left h]

theorem utf8Encode_cons (c : Char) (cs : List Char) :
    utf8Encode (c :: cs) = utf8EncodeChar c ++ utf8Encode cs := rfl

theorem utf8Encode_dash_dash (B : List Char) :
    utf8Encode ('-' :: '-' :: B) = 45 :: 45 :: utf8Encode B := by
  have h : utf8EncodeChar '-' = [45] := by decide
  rw [utf8Encode_cons, utf8Encode_cons, h]
  rfl

theorem partsLoopFuel_zero (data bb : List Nat) (p : Nat) (acc : List Part) :
    partsLoopFuel data bb 0 p acc = acc.reverse := rfl

theorem partsLoopFuel_succ (data bb : List Nat) (fuel p : Nat) (acc : List Part) :
    partsLoopFuel data bb (fuel + 1) p acc =
      if p < data.length then
        match findSequence data bb (skipPos data p) with
        | none => acc.reverse
        | some nb =>
          if data.getD (nb + bb.length) 0 = 45 ∧ data.getD (nb + bb.length + 1) 0 = 45 then
            (pushPart (parsePart ((data.take nb).drop (skipPos data p))) acc).reverse
          else
            partsLoopFuel data bb fuel (nb + bb.length)
              (pushPart (parsePart ((data.take nb).drop (skipPos data p))) acc)
      else acc.reverse := rfl

/-! ### Claim C6 -/

/-- Claim C6: if the byte pattern formed of two dashes followed by the
boundary occurs nowhere in the body, parseMultipartParts returns the
empty sequence (and, being total, raises no error). -/
theorem c6_no_boundary_in_body (data : List Nat) (boundary : List Char)
    (h : ∀ j < data.length, seqMatchAt data (utf8Encode ('-' :: '-' :: boundary)) j = false) :
    parseMultipartParts data boundary = [] := by
  have hnone : findSequence data (utf8Encode ('-' :: '-' :: boundary)) 0 = none := by
    apply findSequence_eq_none
    intro j _
    by_cases hj : j < data.length
    · exact h j hj
    · unfold seqMatchAt
      rw [List.drop_eq_nil_of_le (by omega), List.take_nil, utf8Encode_dash_dash]
      simp
  simp only [parseMultipartParts, findBoundary]
  rw [hnone]

/-- Witness for C6 at a concrete body containing no occurrence of the
boundary pattern. -/
theorem c6_no_boundary_in_body_witness :
    parseMultipartParts [104, 101, 108, 108, 111] ['X'] = [] :=
  c6_no_boundary_in_body [104, 101, 108, 108, 111] ['X'] (by decide)

/-! ### Claim C7 -/

/-- Claim C7: whenever the cursor has been moved past a matched boundary
and the two bytes immediately following are both dashes, the loop stops
at once: the result is the accumulated parts, independent of the
remaining fuel, and no further part is emitted for the epilogue. -/
theorem c7_terminal_boundary (data bb : List Nat) (fuel p : Nat) (acc : List Part) (nb : Nat)
    (hp : p < data.length)
    (hf : findSequence data bb (skipPos data p) = some nb)
    (h45a : data.getD (nb + bb.length) 0 = 45)
    (h45b : data.getD (nb + bb.length + 1) 0 = 45) :
    partsLoopFuel data bb (fuel + 1) p acc =
      (pushPart (parsePart ((data.take nb).drop (skipPos data p))) acc).reverse := by
  rw [partsLoopFuel_succ, if_pos hp, hf]
  exact if_pos ⟨h45a, h45b⟩

/-- Witness for C7: a body consisting of one part block followed by the
terminal boundary stops the loop with the single accumulated part. -/
theorem c7_terminal_boundary_witness :
    partsLoopFuel
      (utf8Encode "--b\r\nContent-Disposition: form-data; name=\"a\"\r\n\r\nZ\r\n--b--".toList)
      [45, 45, 98] 100 3 [] =
      (pushPart (parsePart ((utf8Encode "--b\r\nContent-Disposition: form-data; name=\"a\"\r\n\r\nZ\r\n--b--".toList).take 52 |>.drop
        (skipPos (utf8Encode "--b\r\nContent-Disposition: form-data; name=\"a\"\r\n\r\nZ\r\n--b--".toList) 3))) []).reverse :=
  c7_terminal_boundary _ [45, 45, 98] 99 3 [] 52 (by decide) (by decide) (by decide) (by decide)

/-! ### Claim C9 -/

theorem partsLoopFuel_stable (data bb : List Nat) (hbb : 0 < bb.length) :
    ∀ f g p : Nat, ∀ acc : List Part, data.length - p ≤ f → f ≤ g →
      partsLoopFuel data bb f p acc = partsLoopFuel data bb g p acc := by
  intro f
  induction f with
  | zero =>
    intro g p acc hf _
    cases g with
    | zero => rfl
    | succ g =>
      rw [partsLoopFuel_zero, partsLoopFuel_succ, if_neg (by omega)]
  | succ f ih =>
    intro g p acc hf hg
    cases g with
    | zero => omega
    | succ g =>
      rw [partsLoopFuel_succ, partsLoopFuel_succ]
      by_cases hp : p < data.length
      · rw [if_pos hp, if_pos hp]
        cases hfind : findSequence data bb (skipPos data p) with
        | none => rfl
        | some nb =>
          have hnb : skipPos data p ≤ nb := (findSequence_eq_some hfind).1
          have hsp : p ≤ skipPos data p := skipPos_ge data p
          dsimp only
          by_cases hterm : data.getD (nb + bb.length) 0 = 45 ∧ data.getD (nb + bb.length + 1) 0 = 45
          · rw [if_pos hterm, if_pos hterm]
          · rw [if_neg hterm, if_neg hterm]
            exact ih g (nb + bb.length) _ (by omega) (by omega)
      · rw [if_neg hp, if_neg hp]

/-- Claim C9: the parser terminates on every input.  The loop is
fuel-insensitive: any two fuel values at least the remaining byte count
give the same result, and parseMultipartParts (which runs the loop with
fuel data.length + 1) computes the same list under any larger fuel, so
the scan runs to completion on whatever bytes it is given. -/
theorem c9_parser_terminates :
    (∀ data bb : List Nat, ∀ f g p : Nat, ∀ acc : List Part, 0 < bb.length →
      data.length - p ≤ f → data.length - p ≤ g →
      partsLoopFuel data bb f p acc = partsLoopFuel data bb g p acc) ∧
    (∀ data : List Nat, ∀ boundary : List Char, ∀ f : Nat, data.length + 1 ≤ f →
      parseMultipartParts data boundary =
        match findBoundary data (utf8Encode ('-' :: '-' :: boundary)) 0 with
        | none => []
        | some p0 =>
          partsLoopFuel data (utf8Encode ('-' :: '-' :: boundary)) f
            (p0 + (utf8Encode ('-' :: '-' :: boundary)).length) []) := by
  constructor
  · intro data bb f g p acc hbb hf hg
    rcases Nat.le_total f g with h | h
    · exact partsLoopFuel_stable data bb hbb f g p acc hf h
    · exact (partsLoopFuel_stable data bb hbb g f p acc hg h).symm
  · intro data boundary f hfuel
    have hbb : 0 < (utf8Encode ('-' :: '-' :: boundary)).length := by
      rw [utf8Encode_dash_dash]
      simp
    simp only [parseMultipartParts, findBoundary]
    cases hfind : findSequence data (utf8Encode ('-' :: '-' :: boundary)) 0 with
    | none => rfl
    | some p0 =>
      exact partsLoopFuel_stable data _ hbb _ f _ [] (by omega) hfuel

/-- Witness for C9 on concrete data, fuel values and positions. -/
theorem c9_parser_terminates_witness :
    partsLoopFuel [13, 10, 45, 45] [45, 45] 4 0 [] =
      partsLoopFuel [13, 10, 45, 45] [45, 45] 9 0 [] :=
  c9_parser_terminates.1 [13, 10, 45, 45] [45, 45] 4 9 0 [] (by decide) (by decide) (by decide)

/-! ### Claim C5 -/

/-- Claim C5: per-part malformations never abort the parse.  A block with
no CRLFCRLF separator parses to none; a block whose parsed headers have
no content-disposition entry parses to none; and when a block parses to
none the loop keeps its accumulator unchanged and continues with the
bytes after the next boundary. -/
theorem c5_malformed_part_dropped :
    (∀ pd : List Nat, findSequence pd [13, 10, 13, 10] 0 = none → parsePart pd = none) ∧
    (∀ pd : List Nat, ∀ hp : Nat, findSequence pd [13, 10, 13, 10] 0 = some hp →
      objGet (parseHeaders (utf8Decode (pd.take hp))) ("content-disposition".toList) = none →
      parsePart pd = none) ∧
    (∀ data bb : List Nat, ∀ fuel p : Nat, ∀ acc : List Part, ∀ nb : Nat,
      p < data.length →
      findSequence data bb (skipPos data p) = some nb →
      parsePart ((data.take nb).drop (skipPos data p)) = none →
      ¬(data.getD (nb + bb.length) 0 = 45 ∧ data.getD (nb + bb.length + 1) 0 = 45) →
      partsLoopFuel data bb (fuel + 1) p acc = partsLoopFuel data bb fuel (nb + bb.length) acc) := by
  refine ⟨?_, ?_, ?_⟩
  · intro pd h
    unfold parsePart
    rw [h]
  · intro pd hp h1 h2
    unfold parsePart
    rw [h1]
    simp only [h2]
  · intro data bb fuel p acc nb hp hfind hnone hterm
    rw [partsLoopFuel_succ, if_pos hp, hfind]
    dsimp only
    rw [if_neg hterm, hnone]
    rfl

/-- Witness for C5: a separator-free block, a block with headers but no
content-disposition, and a loop step over a malformed block. -/
theorem c5_malformed_part_dropped_witness :
    parsePart [65, 66, 67] = none ∧
    parsePart (utf8Encode "X-Other: 1\r\n\r\nhi".toList) = none :=
  ⟨c5_malformed_part_dropped.1 [65, 66, 67] (by decide),
   c5_malformed_part_dropped.2.1 (utf8Encode "X-Other: 1\r\n\r\nhi".toList) 10
     (by decide) (by decide)⟩

/-! ### Claim C4 -/

/-- The claim's description of the payload: one trailing CRLF removed
when the payload ends in CRLF, nothing removed otherwise. -/
def stripTrailingCRLF (l : List Nat) : List Nat :=
  if [13, 10].isSuffixOf l then l.take (l.length - 2) else l

theorem strip_cond_iff (l : List Nat) :
    (2 ≤ l.length ∧ l.getD (l.length - 2) 0 = 13 ∧ l.getD (l.length - 1) 0 = 10) ↔
      [13, 10] <:+ l := by
  constructor
  · rintro ⟨hlen, h13, h10⟩
    have e13 : l[l.length - 2]? = some 13 := by
      rw [List.getD_eq_getElem?_getD, List.getElem?_eq_getElem (by omega)] at h13
      simp only [Option.getD_some] at h13
      rw [List.getElem?_eq_getElem (by omega), h13]
    have e10 : l[l.length - 1]? = some 10 := by
      rw [List.getD_eq_getElem?_getD, List.getElem?_eq_getElem (by omega)] at h10
      simp only [Option.getD_some] at h10
      rw [List.getElem?_eq_getElem (by omega), h10]
    have hdrop : l.drop (l.length - 2) = [13, 10] := by
      apply List.ext_getElem?
      intro n
      rw [List.getElem?_drop]
      match n with
      | 0 => simpa using e13
      | 1 =>
        have : l.length - 2 + 1 = l.length - 1 := by omega
        rw [this]
        simpa using e10
      | n + 2 =>
        rw [List.getElem?_eq_none (by omega), List.getElem?_eq_none (by simp)]
    rw [← hdrop]
    exact List.drop_suffix _ l
  · rintro ⟨pre, rfl⟩
    have hl2 : pre.length + 2 - 2 = pre.length + 0 := by omega
    have hl1 : pre.length + 2 - 1 = pre.length + 1 := by omega
    refine ⟨by simp, ?_, ?_⟩
    · rw [List.length_append, List.length_cons, List.length_cons, List.length_nil, hl2,
        getD_append_right]
      rfl
    · rw [List.length_append, List.length_cons, List.length_cons, List.length_nil, hl1,
        getD_append_right]
      rfl

theorem takeContentEnd_eq_strip (l : List Nat) :
    l.take
      (if 2 ≤ l.length ∧ l.getD (l.length - 2) 0 = 13 ∧ l.getD (l.length - 1) 0 = 10 then
        l.length - 2
      else l.length) = stripTrailingCRLF l := by
  unfold stripTrailingCRLF
  by_cases hc : 2 ≤ l.length ∧ l.getD (l.length - 2) 0 = 13 ∧ l.getD (l.length - 1) 0 = 10
  · rw [if_pos hc, if_pos]
    exact List.isSuffixOf_iff_suffix.mpr ((strip_cond_iff l).mp hc)
  · rw [if_neg hc, if_neg, List.take_length]
    intro hsuf
    exact hc ((strip_cond_iff l).mpr (List.isSuffixOf_iff_suffix.mp hsuf))

/-- Every successful parsePart has the shape dictated by the source:
the block splits at the first CRLFCRLF, the content-disposition value is
present and truthy, and the fields are the regex captures with the
stripped payload. -/
theorem parsePart_some_shape {pd : List Nat} {q : Part} (h : parsePart pd = some q) :
    ∃ hp cd, findSequence pd [13, 10, 13, 10] 0 = some hp ∧
      objGet (parseHeaders (utf8Decode (pd.take hp))) ("content-disposition".toList) = some cd ∧
      cd ≠ [] ∧
      q = { name := (jsMatchCapture ("name=\"".toList) cd).getD []
            filename := jsMatchCapture ("filename=\"".toList) cd
            contentType :=
              jsOrNull (objGet (parseHeaders (utf8Decode (pd.take hp))) ("content-type".toList))
            data :=
              (pd.drop (hp + 4)).take
                (if 2 ≤ (pd.drop (hp + 4)).length ∧
                    (pd.drop (hp + 4)).getD ((pd.drop (hp + 4)).length - 2) 0 = 13 ∧
                    (pd.drop (hp + 4)).getD ((pd.drop (hp + 4)).length - 1) 0 = 10 then
                  (pd.drop (hp + 4)).length - 2
                else (pd.drop (hp + 4)).length) } := by
  unfold parsePart at h
  split at h
  · exact absurd h (by simp)
  · next hp hfind =>
    dsimp only at h
    split at h
    · exact absurd h (by simp)
    · next cd hobj =>
      split at h
      · exact absurd h (by simp)
      · next hcd =>
        exact ⟨hp, cd, hfind, hobj, hcd, (Option.some.inj h).symm⟩

/-- Claim C4: for every emitted part the payload is the bytes after the
first CRLFCRLF separator of the block, with exactly one trailing CRLF
removed when present and nothing removed otherwise, taken as raw bytes. -/
theorem c4_payload_extraction (pd : List Nat) (q : Part) (h : parsePart pd = some q) :
    ∃ hpos,
      seqMatchAt pd [13, 10, 13, 10] hpos = true ∧
      (∀ j < hpos, seqMatchAt pd [13, 10, 13, 10] j = false) ∧
      q.data = stripTrailingCRLF (pd.drop (hpos + 4)) := by
  obtain ⟨hp, cd, hfind, -, -, hq⟩ := parsePart_some_shape h
  obtain ⟨-, hmatch, hmin⟩ := findSequence_eq_some hfind
  refine ⟨hp, hmatch, fun j hj => hmin j (Nat.zero_le j) hj, ?_⟩
  rw [hq]
  exact takeContentEnd_eq_strip (pd.drop (hp + 4))

/-- Witness for C4: a file part with zero-length content between its
header separator and the boundary yields data of length 0, exhibited by
applying the theorem at a concrete block. -/
theorem c4_payload_extraction_witness :
    parsePart (utf8Encode "Content-Disposition: form-data; name=\"f\"; filename=\"e.bin\"\r\n\r\n".toList) =
      some { name := ['f'], filename := some "e.bin".toList, contentType := none, data := [] } ∧
    ∃ hpos,
      seqMatchAt (utf8Encode "Content-Disposition: form-data; name=\"f\"; filename=\"e.bin\"\r\n\r\n".toList)
        [13, 10, 13, 10] hpos = true ∧
      (∀ j < hpos,
        seqMatchAt (utf8Encode "Content-Disposition: form-data; name=\"f\"; filename=\"e.bin\"\r\n\r\n".toList)
          [13, 10, 13, 10] j = false) ∧
      ({ name := ['f'], filename := some "e.bin".toList, contentType := none,
          data := [] } : Part).data =
        stripTrailingCRLF
          ((utf8Encode "Content-Disposition: form-data; name=\"f\"; filename=\"e.bin\"\r\n\r\n".toList).drop
            (hpos + 4)) :=
  ⟨by decide, c4_payload_extraction _ _ (by decide)⟩

/-! ### Claim C2 -/

/-- Claim C2: parseMultipartFormData fails exactly when the Content-Type
header is absent or lacks the substring multipart/form-data (message
"Content-Type must be multipart/form-data"), or when it has no boundary
parameter (message "No boundary found in Content-Type"); otherwise it
returns the parts of the body parsed with the trimmed, quote-stripped
boundary value. -/
theorem c2_error_cases :
    (∀ request : RawRequest, ∀ e : List Char,
      parseMultipartFormData request = Except.error e ↔
        ((e = "Content-Type must be multipart/form-data".toList ∧
            (match request.contentType with
             | none => True
             | some ct => jsIncludes ct ("multipart/form-data".toList) = false)) ∨
         (e = "No boundary found in Content-Type".toList ∧
            ∃ ct, request.contentType = some ct ∧
              jsIncludes ct ("multipart/form-data".toList) = true ∧
              jsBoundaryMatch ct = none))) ∧
    (∀ request : RawRequest, ∀ ct raw : List Char,
      request.contentType = some ct →
      jsIncludes ct ("multipart/form-data".toList) = true →
      jsBoundaryMatch ct = some raw →
      parseMultipartFormData request =
        Except.ok (buildFormData (parseMultipartParts request.body (stripQuotes (jsTrim raw))))) := by
  constructor
  · rintro ⟨ctOpt, body⟩ e
    unfold parseMultipartFormData
    cases ctOpt with
    | none =>
      dsimp only
      constructor
      · intro he
        exact Or.inl ⟨(Except.error.inj he).symm, trivial⟩
      · rintro (⟨he, -⟩ | ⟨-, ct, hcteq, -⟩)
        · rw [he]
        · cases hcteq
    | some ct =>
      dsimp only
      by_cases hinc : jsIncludes ct ("multipart/form-data".toList) = false
      · rw [if_pos hinc]
        constructor
        · intro he
          exact Or.inl ⟨(Except.error.inj he).symm, hinc⟩
        · rintro (⟨he, -⟩ | ⟨he, ct2, hct2, hinc2, -⟩)
          · rw [he]
          · injection hct2 with h2
            subst h2
            rw [hinc] at hinc2
            cases hinc2
      · rw [if_neg hinc]
        have hinc' : jsIncludes ct ("multipart/form-data".toList) = true := by
          rcases Bool.eq_false_or_eq_true (jsIncludes ct ("multipart/form-data".toList)) with h | h
          · exact h
          · exact absurd h hinc
        cases hbm : jsBoundaryMatch ct with
        | none =>
          constructor
          · intro he
            exact Or.inr ⟨(Except.error.inj he).symm, ct, rfl, hinc', hbm⟩
          · rintro (⟨he, hmat⟩ | ⟨he, -, -, -, -⟩)
            · rw [hinc'] at hmat
              cases hmat
            · rw [he]
        | some raw =>
          constructor
          · intro he
            cases he
          · rintro (⟨he, hmat⟩ | ⟨he, ct2, hct2, hi2, hbm2⟩)
            · rw [hinc'] at hmat
              cases hmat
            · injection hct2 with h2
              subst h2
              rw [hbm] at hbm2
              cases hbm2
  · rintro ⟨ctOpt, body⟩ ct raw hct hinc hbm
    cases hct
    unfold parseMultipartFormData
    dsimp only
    rw [if_neg (by rw [hinc]; intro hfalse; cases hfalse), hbm]

/-- Witness for C2: a text/plain request fails with the content-type
message; a multipart request without boundary fails with the boundary
message; a well-formed request parses. -/
theorem c2_error_cases_witness :
    parseMultipartFormData { contentType := some "text/plain".toList, body := [] } =
      Except.error ("Content-Type must be multipart/form-data".toList) ∧
    parseMultipartFormData { contentType := some "multipart/form-data".toList, body := [] } =
      Except.error ("No boundary found in Content-Type".toList) ∧
    parseMultipartFormData
        { contentType := some "multipart/form-data; boundary=\"X\"".toList, body := [] } =
      Except.ok (buildFormData (parseMultipartParts []
        (stripQuotes (jsTrim "\"X\"".toList)))) :=
  ⟨(c2_error_cases.1 _ _).mpr (Or.inl ⟨rfl, by decide⟩),
   (c2_error_cases.1 _ _).mpr (Or.inr ⟨rfl, "multipart/form-data".toList, rfl, by decide, by decide⟩),
   c2_error_cases.2 _ "multipart/form-data; boundary=\"X\"".toList "\"X\"".toList rfl
     (by decide) (by decide)⟩

/-! ### Claim C3 -/

/-- Counterexample to claim C3: a part block whose Content-Disposition
is present but has no name attribute is NOT dropped: parsePart emits it
with the empty string as its name. -/
theorem c3_counterexample :
    parsePart (utf8Encode "Content-Disposition: form-data\r\n\r\nA".toList) =
      some { name := [], filename := none, contentType := none, data := [65] } := by
  decide

/-- Amended claim C3: a part block whose Content-Disposition value is
present (and truthy) but matches no name attribute is still emitted,
with name set to the empty string; no error is raised and following
parts are unaffected. -/
theorem c3_amended_nameless_part_kept (pd : List Nat) (hp : Nat) (cd : List Char)
    (h1 : findSequence pd [13, 10, 13, 10] 0 = some hp)
    (h2 : objGet (parseHeaders (utf8Decode (pd.take hp))) ("content-disposition".toList) = some cd)
    (h3 : cd ≠ [])
    (h4 : jsMatchCapture ("name=\"".toList) cd = none) :
    ∃ q, parsePart pd = some q ∧ q.name = [] := by
  unfold parsePart
  rw [h1]
  dsimp only
  rw [h2]
  dsimp only
  rw [if_neg h3, h4]
  exact ⟨_, rfl, rfl⟩

/-- Witness for the amended C3 at a concrete nameless block. -/
theorem c3_amended_nameless_part_kept_witness :
    ∃ q, parsePart (utf8Encode "Content-Disposition: form-data; x=\"1\"\r\n\r\nhi".toList) = some q ∧
      q.name = [] :=
  c3_amended_nameless_part_kept
    (utf8Encode "Content-Disposition: form-data; x=\"1\"\r\n\r\nhi".toList) 37
    ("form-data; x=\"1\"".toList) (by decide) (by decide) (by decide) (by decide)

/-! ### Claim C8 -/

/-- Spec-side line splitting, following the claim's words: lines are the
maximal runs up to a newline, and a line terminated by a newline loses a
carriage return that immediately preceded it. -/
def splitLinesSpec (s : List Char) : List (List Char) :=
  match h : s.dropWhile (fun c => c != '\n') with
  | [] => [s.takeWhile (fun c => c != '\n')]
  | _ :: rest => dropTrailingCR (s.takeWhile (fun c => c != '\n')) :: splitLinesSpec rest
termination_by s.length
decreasing_by
  have hle : (s.dropWhile (fun c => c != '\n')).length ≤ s.length :=
    (List.dropWhile_sublist (fun c => c != '\n')).length_le
  rw [h] at hle
  simp only [List.length_cons] at hle
  omega

/-- Spec-side treatment of one header line: a colon at a position greater
than zero yields the lower-cased trimmed key and the trimmed value;
other lines are ignored. -/
def lineEntrySpec (line : List Char) : Option (List Char × List Char) :=
  let before := line.takeWhile (fun c => c != ':')
  if before.length = 0 ∨ before.length = line.length then none
  else some (jsToLower (jsTrim before), jsTrim (line.drop (before.length + 1)))

/-- Spec-side header table: process the lines in order, each recognised
line overwriting the previous binding of its key, so that the last
occurrence of a key wins. -/
def parseHeadersSpecFun (t : List Char) : List Char → Option (List Char) :=
  (splitLinesSpec t).foldl
    (fun m line =>
      match lineEntrySpec line with
      | some kv => fun q => if q = kv.1 then some kv.2 else m q
      | none => m)
    (fun _ => none)

theorem dropTrailingCR_cons (c : Char) (tw : List Char) (h : tw ≠ [] ∨ c ≠ '\r') :
    dropTrailingCR (c :: tw) = c :: dropTrailingCR tw := by
  unfold dropTrailingCR
  cases htw : tw with
  | nil =>
    rcases h with h | h
    · exact absurd htw h
    · simp [List.getLast?_singleton]
      intro hc
      exact absurd hc h
  | cons d ds =>
    rw [List.getLast?_cons_cons]
    cases hlast : (d :: ds).getLast? with
    | none => simp at hlast
    | some e =>
      by_cases he : e == '\r'
      · simp only [he, if_true]
        rw [List.dropLast_cons_of_ne_nil (by simp)]
      · simp only [Bool.not_eq_true] at he
        simp [he]

theorem splitLinesSpec_nil : splitLinesSpec [] = [[]] := by
  conv_lhs => rw [splitLinesSpec.eq_def]
  rfl

theorem splitLinesSpec_lf (rest : List Char) :
    splitLinesSpec ('\n' :: rest) = [] :: splitLinesSpec rest := by
  conv_lhs => rw [splitLinesSpec.eq_def]
  simp [List.dropWhile, List.takeWhile, dropTrailingCR]

theorem splitLinesSpec_crlf (rest : List Char) :
    splitLinesSpec ('\r' :: '\n' :: rest) = [] :: splitLinesSpec rest := by
  conv_lhs => rw [splitLinesSpec.eq_def]
  simp [List.dropWhile, List.takeWhile, dropTrailingCR]

theorem splitLinesSpec_cons_none {c : Char} (rest : List Char) (hc : (c != '\n') = true)
    (hdrop : rest.dropWhile (fun c => c != '\n') = []) :
    splitLinesSpec (c :: rest) = [c :: rest.takeWhile (fun c => c != '\n')] := by
  conv_lhs => rw [splitLinesSpec.eq_def]
  split
  · next heq =>
    rw [List.takeWhile_cons, hc]
    rfl
  · next head rest2 heq =>
    rw [List.dropWhile_cons, hc, if_pos rfl, hdrop] at heq
    cases heq

theorem splitLinesSpec_cons_some {c : Char} (rest : List Char) (hc : (c != '\n') = true)
    {d : Char} {rest2 : List Char}
    (hdrop : rest.dropWhile (fun c => c != '\n') = d :: rest2) :
    splitLinesSpec (c :: rest) =
      dropTrailingCR (c :: rest.takeWhile (fun c => c != '\n')) :: splitLinesSpec rest2 := by
  conv_lhs => rw [splitLinesSpec.eq_def]
  split
  · next heq =>
    rw [List.dropWhile_cons, hc, if_pos rfl, hdrop] at heq
    cases heq
  · next head rest3 heq =>
    rw [List.dropWhile_cons, hc, if_pos rfl, hdrop] at heq
    injection heq with h1 h2
    subst h2
    rw [List.takeWhile_cons, hc]
    rfl

theorem splitLinesSpec_of_dropWhile_nil {rest : List Char}
    (hdrop : rest.dropWhile (fun c => c != '\n') = []) :
    splitLinesSpec rest = [rest.takeWhile (fun c => c != '\n')] := by
  conv_lhs => rw [splitLinesSpec.eq_def]
  split
  · rfl
  · next head rest2 heq =>
    rw [hdrop] at heq
    cases heq

theorem splitLinesSpec_of_dropWhile_cons {rest : List Char} {d : Char} {rest2 : List Char}
    (hdrop : rest.dropWhile (fun c => c != '\n') = d :: rest2) :
    splitLinesSpec rest =
      dropTrailingCR (rest.takeWhile (fun c => c != '\n')) :: splitLinesSpec rest2 := by
  conv_lhs => rw [splitLinesSpec.eq_def]
  split
  · next heq =>
    rw [hdrop] at heq
    cases heq
  · next head rest3 heq =>
    rw [hdrop] at heq
    injection heq with h1 h2
    subst h2
    rfl

theorem jsSplitLines_ne_nil (s : List Char) : jsSplitLines s ≠ [] := by
  induction s using jsSplitLines.induct with
  | case1 => simp [jsSplitLines.eq_1]
  | case2 rest ih => rw [jsSplitLines.eq_2]; simp
  | case3 rest ih => rw [jsSplitLines.eq_3]; simp
  | case4 c rest h1 h2 l ls heq ih =>
    rw [jsSplitLines.eq_4 c rest h1 h2, heq]
    simp
  | case5 c rest h1 h2 heq ih =>
    rw [jsSplitLines.eq_4 c rest h1 h2, heq]
    simp

theorem jsSplitLines_eq_spec (s : List Char) : jsSplitLines s = splitLinesSpec s := by
  induction s using jsSplitLines.induct with
  | case1 => rw [jsSplitLines.eq_1, splitLinesSpec_nil]
  | case2 rest ih => rw [jsSplitLines.eq_2, splitLinesSpec_crlf, ih]
  | case3 rest ih => rw [jsSplitLines.eq_3, splitLinesSpec_lf, ih]
  | case4 c rest h1 h2 l ls heq ih =>
    have hc : (c != '\n') = true := bne_iff_ne.mpr fun hh => h2 hh
    rw [jsSplitLines.eq_4 c rest h1 h2, heq]
    dsimp only
    rw [ih] at heq
    cases hdrop : rest.dropWhile (fun c => c != '\n') with
    | nil =>
      rw [splitLinesSpec_cons_none rest hc hdrop]
      rw [splitLinesSpec_of_dropWhile_nil hdrop] at heq
      injection heq with e1 e2
      rw [← e1, ← e2]
    | cons d rest2 =>
      rw [splitLinesSpec_cons_some rest hc hdrop]
      rw [splitLinesSpec_of_dropWhile_cons hdrop] at heq
      injection heq with e1 e2
      rw [← e1, ← e2]
      have hside : rest.takeWhile (fun c => c != '\n') ≠ [] ∨ c ≠ '\r' := by
        by_cases htw : rest.takeWhile (fun c => c != '\n') = []
        · right
          intro hcr
          cases rest with
          | nil => rw [List.dropWhile_nil] at hdrop; cases hdrop
          | cons r0 rtl =>
            by_cases hr0 : (r0 != '\n') = true
            · rw [List.takeWhile_cons, hr0, if_pos rfl] at htw
              cases htw
            · have hr0' : r0 = '\n' := by
                by_cases he : r0 = '\n'
                · exact he
                · exact absurd (bne_iff_ne.mpr he) hr0
              exact h1 rtl hcr (by rw [hr0'])
        · left
          exact htw
      rw [dropTrailingCR_cons c _ hside]
  | case5 c rest h1 h2 heq ih =>
    exact absurd heq (jsSplitLines_ne_nil rest)

theorem findIdx_colon_eq (l : List Char) : ∀ i : Nat,
    List.findIdx? (fun c => c == ':') l i =
      if (l.takeWhile (fun c => c != ':')).length = l.length then none
      else some ((l.takeWhile (fun c => c != ':')).length + i) := by
  induction l with
  | nil => intro i; rfl
  | cons c rest ih =>
    intro i
    rw [List.findIdx?_cons]
    by_cases hc : (c == ':') = true
    · rw [if_pos hc]
      have hcne : (c != ':') = false := by
        simp only [bne, hc, Bool.not_true]
      rw [List.takeWhile_cons, hcne]
      simp
    · rw [if_neg hc, ih (i + 1)]
      have hcne : (c != ':') = true := by
        simp only [bne, Bool.not_eq_true', Bool.not_eq_true] at hc ⊢
        simp [hc]
      rw [List.takeWhile_cons, hcne, if_pos rfl]
      by_cases hlen :
          (rest.takeWhile (fun c => c != ':')).length = rest.length
      · rw [if_pos hlen, if_pos (by simp [hlen])]
      · rw [if_neg hlen, if_neg (by simp [hlen])]
        congr 1
        simp only [List.length_cons]
        omega

theorem take_takeWhile_self (p : Char → Bool) (l : List Char) :
    l.take ((l.takeWhile p).length) = l.takeWhile p :=
  (List.prefix_iff_eq_take.mp (List.takeWhile_prefix p)).symm

theorem parseHeaderLine_eq_lineEntrySpec (line : List Char) :
    parseHeaderLine line = lineEntrySpec line := by
  unfold parseHeaderLine lineEntrySpec
  rw [findIdx_colon_eq line 0]
  by_cases hall : (line.takeWhile (fun c => c != ':')).length = line.length
  · rw [if_pos hall]
    exact (if_pos (Or.inr hall)).symm
  · rw [if_neg hall]
    dsimp only
    by_cases h0 : (line.takeWhile (fun c => c != ':')).length = 0
    · rw [h0]
      rw [if_pos (Or.inl rfl)]
      simp
    · rw [if_pos (by omega), if_neg (by push_neg; exact ⟨h0, hall⟩)]
      rw [Nat.add_zero, take_takeWhile_self]

theorem objGet_append_singleton (hs : List (List Char × List Char))
    (kv : List Char × List Char) (k : List Char) :
    objGet (hs ++ [kv]) k = if k = kv.1 then some kv.2 else objGet hs k := by
  unfold objGet
  rw [List.filter_append]
  by_cases hk : (kv.1 == k) = true
  · have hk' : k = kv.1 := (eq_of_beq hk).symm
    rw [if_pos hk']
    have hfil : List.filter (fun kv2 => kv2.1 == k) [kv] = [kv] := by
      simp [List.filter_cons, hk]
    rw [hfil, List.getLast?_concat]
    rfl
  · have hk' : ¬k = kv.1 := fun he => hk (by rw [he]; exact beq_self_eq_true kv.1)
    rw [if_neg hk']
    have hfil : List.filter (fun kv2 => kv2.1 == k) [kv] = [] := by
      simp [List.filter_cons, hk]
    rw [hfil, List.append_nil]

theorem objGet_filterMap_foldl (lines : List (List Char)) (k : List Char) :
    objGet (lines.filterMap parseHeaderLine) k =
      (lines.foldl
        (fun m line =>
          match lineEntrySpec line with
          | some kv => fun q => if q = kv.1 then some kv.2 else m q
          | none => m)
        (fun _ => none)) k := by
  induction lines using List.reverseRecOn with
  | nil => rfl
  | append_singleton ls l ih =>
    rw [List.filterMap_append, List.foldl_append]
    simp only [List.filterMap_cons, List.filterMap_nil, List.foldl_cons, List.foldl_nil]
    rw [parseHeaderLine_eq_lineEntrySpec l]
    cases hl : lineEntrySpec l with
    | none =>
      rw [List.append_nil]
      exact ih
    | some kv =>
      rw [objGet_append_singleton]
      dsimp only
      by_cases hk : k = kv.1
      · rw [if_pos hk, if_pos hk]
      · rw [if_neg hk, if_neg hk]
        exact ih

/-- Claim C8: the header bytes are decoded as UTF-8 and split into lines
on CRLF or bare LF; every line with a colon at positive position yields
an entry with lower-cased trimmed key and trimmed value, other lines are
ignored, and on repeated keys the last occurrence wins: indexing the
parsed header object agrees with the spec-side overwrite map. -/
theorem c8_header_parsing (headerBytes : List Nat) (k : List Char) :
    objGet (parseHeaders (utf8Decode headerBytes)) k =
      parseHeadersSpecFun (utf8Decode headerBytes) k := by
  unfold parseHeaders parseHeadersSpecFun
  rw [jsSplitLines_eq_spec]
  exact objGet_filterMap_foldl _ k

/-! ### UTF-8 round trip -/

theorem char_toNat_inj {c d : Char} (h : c.toNat = d.toNat) : c = d := by
  have h2 := congrArg Char.ofNat h
  rwa [Char.ofNat_toNat, Char.ofNat_toNat] at h2

theorem char_valid (c : Char) :
    c.toNat < 0xD800 ∨ (0xE000 ≤ c.toNat ∧ c.toNat < 0x110000) := by
  have h := c.valid
  unfold UInt32.isValidChar Nat.isValidChar at h
  exact h

theorem utf8EncodeChar_eq_1 {c : Char} (h : c.toNat < 0x80) :
    utf8EncodeChar c = [c.toNat] := by
  unfold utf8EncodeChar
  rw [if_pos h]

theorem utf8EncodeChar_eq_2 {c : Char} (h1 : ¬c.toNat < 0x80) (h2 : c.toNat < 0x800) :
    utf8EncodeChar c = [0xC0 + c.toNat / 0x40, 0x80 + c.toNat % 0x40] := by
  unfold utf8EncodeChar
  rw [if_neg h1, if_pos h2]

theorem utf8EncodeChar_eq_3 {c : Char} (h1 : ¬c.toNat < 0x80) (h2 : ¬c.toNat < 0x800)
    (h3 : c.toNat < 0x10000) :
    utf8EncodeChar c =
      [0xE0 + c.toNat / 0x1000, 0x80 + c.toNat / 0x40 % 0x40, 0x80 + c.toNat % 0x40] := by
  unfold utf8EncodeChar
  rw [if_neg h1, if_neg h2, if_pos h3]

theorem utf8EncodeChar_eq_4 {c : Char} (h1 : ¬c.toNat < 0x80) (h2 : ¬c.toNat < 0x800)
    (h3 : ¬c.toNat < 0x10000) :
    utf8EncodeChar c =
      [0xF0 + c.toNat / 0x40000, 0x80 + c.toNat / 0x1000 % 0x40,
        0x80 + c.toNat / 0x40 % 0x40, 0x80 + c.toNat % 0x40] := by
  unfold utf8EncodeChar
  rw [if_neg h1, if_neg h2, if_neg h3]

theorem utf8DecodeLoop_encodeChar (c : Char) (rest : List Nat) :
    utf8DecodeLoop (utf8EncodeChar c ++ rest) = c :: utf8DecodeLoop rest := by
  have hval := char_valid c
  have ediv1 : c.toNat / 0x40 / 0x40 = c.toNat / 0x1000 := by
    rw [Nat.div_div_eq_div_mul]
  have ediv2 : c.toNat / 0x1000 / 0x40 = c.toNat / 0x40000 := by
    rw [Nat.div_div_eq_div_mul]
  by_cases h1 : c.toNat < 0x80
  · rw [utf8EncodeChar_eq_1 h1, List.cons_append, List.nil_append, utf8DecodeLoop.eq_def]
    try dsimp only
    rw [if_pos h1, Char.ofNat_toNat]
  · by_cases h2 : c.toNat < 0x800
    · rw [utf8EncodeChar_eq_2 h1 h2]
      rw [List.cons_append, List.cons_append, List.nil_append, utf8DecodeLoop.eq_def]
      try dsimp only
      rw [if_neg (by omega), if_neg (by omega), if_pos (by omega)]
      try dsimp only
      rw [if_pos (by constructor <;> omega)]
      have harg : (0xC0 + c.toNat / 0x40 - 0xC0) * 0x40 + (0x80 + c.toNat % 0x40 - 0x80) =
          c.toNat := by omega
      rw [harg, Char.ofNat_toNat]
    · by_cases h3 : c.toNat < 0x10000
      · rw [utf8EncodeChar_eq_3 h1 h2 h3]
        rw [List.cons_append, List.cons_append, List.cons_append, List.nil_append,
          utf8DecodeLoop.eq_def]
        try dsimp only
        rw [if_neg (by omega), if_neg (by omega), if_neg (by omega), if_pos (by omega)]
        try dsimp only
        rw [if_pos (by constructor <;> split <;> omega)]
        try dsimp only
        rw [if_pos (by constructor <;> omega)]
        have harg : (0xE0 + c.toNat / 0x1000 - 0xE0) * 0x1000 +
            (0x80 + c.toNat / 0x40 % 0x40 - 0x80) * 0x40 +
            (0x80 + c.toNat % 0x40 - 0x80) = c.toNat := by omega
        rw [harg, Char.ofNat_toNat]
      · rw [utf8EncodeChar_eq_4 h1 h2 h3]
        rw [List.cons_append, List.cons_append, List.cons_append, List.cons_append,
          List.nil_append, utf8DecodeLoop.eq_def]
        try dsimp only
        rw [if_neg (by omega), if_neg (by omega), if_neg (by omega), if_neg (by omega),
          if_pos (by omega)]
        try dsimp only
        rw [if_pos (by constructor <;> split <;> omega)]
        try dsimp only
        rw [if_pos (by constructor <;> omega)]
        try dsimp only
        rw [if_pos (by constructor <;> omega)]
        have harg : (0xF0 + c.toNat / 0x40000 - 0xF0) * 0x40000 +
            (0x80 + c.toNat / 0x1000 % 0x40 - 0x80) * 0x1000 +
            (0x80 + c.toNat / 0x40 % 0x40 - 0x80) * 0x40 +
            (0x80 + c.toNat % 0x40 - 0x80) = c.toNat := by omega
        rw [harg, Char.ofNat_toNat]

theorem utf8DecodeLoop_encode (s : List Char) : utf8DecodeLoop (utf8Encode s) = s := by
  induction s with
  | nil => rfl
  | cons c cs ih =>
    rw [utf8Encode_cons, utf8DecodeLoop_encodeChar, ih]

/-- Decoding an encoded string whose first scalar is ASCII gives the
string back: the byte-order-mark check cannot fire. -/
theorem utf8Decode_encode_ascii_head (c : Char) (cs : List Char) (hc : c.toNat < 0x80) :
    utf8Decode (utf8Encode (c :: cs)) = c :: cs := by
  unfold utf8Decode
  rw [if_neg, utf8DecodeLoop_encode]
  rw [utf8Encode_cons, utf8EncodeChar_eq_1 hc]
  intro habs
  rw [List.cons_append, List.take_succ_cons] at habs
  have hhd : c.toNat = 0xEF := (List.cons.injEq _ _ _ _ ▸ habs).1
  omega

/-! ### Byte-level facts about the encoding -/

theorem utf8EncodeChar_no_crlf {c : Char} (h13 : c ≠ '\r') (h10 : c ≠ '\n') :
    ∀ b ∈ utf8EncodeChar c, b ≠ 13 ∧ b ≠ 10 := by
  intro b hb
  by_cases h1 : c.toNat < 0x80
  · rw [utf8EncodeChar_eq_1 h1] at hb
    simp only [List.mem_singleton] at hb
    subst hb
    constructor
    · intro h
      exact h13 (char_toNat_inj (by rw [h]; decide))
    · intro h
      exact h10 (char_toNat_inj (by rw [h]; decide))
  · by_cases h2 : c.toNat < 0x800
    · rw [utf8EncodeChar_eq_2 h1 h2] at hb
      simp only [List.mem_cons, List.mem_singleton, List.not_mem_nil, or_false] at hb
      rcases hb with hb | hb <;> subst hb <;> constructor <;> omega
    · by_cases h3 : c.toNat < 0x10000
      · rw [utf8EncodeChar_eq_3 h1 h2 h3] at hb
        simp only [List.mem_cons, List.mem_singleton, List.not_mem_nil, or_false] at hb
        rcases hb with hb | hb | hb <;> subst hb <;> constructor <;> omega
      · rw [utf8EncodeChar_eq_4 h1 h2 h3] at hb
        simp only [List.mem_cons, List.mem_singleton, List.not_mem_nil, or_false] at hb
        rcases hb with hb | hb | hb | hb <;> subst hb <;> constructor <;> omega

theorem utf8Encode_no_crlf {s : List Char} (h : ∀ c ∈ s, c ≠ '\r' ∧ c ≠ '\n') :
    ∀ b ∈ utf8Encode s, b ≠ 13 ∧ b ≠ 10 := by
  induction s with
  | nil => intro b hb; cases hb
  | cons c cs ih =>
    intro b hb
    rw [utf8Encode_cons, List.mem_append] at hb
    rcases hb with hb | hb
    · exact utf8EncodeChar_no_crlf (h c (by simp)).1 (h c (by simp)).2 b hb
    · exact ih (fun d hd => h d (by simp [hd])) b hb

theorem utf8Encode_append (a b : List Char) :
    utf8Encode (a ++ b) = utf8Encode a ++ utf8Encode b := by
  induction a with
  | nil => rfl
  | cons c cs ih =>
    rw [List.cons_append, utf8Encode_cons, utf8Encode_cons, ih, List.append_assoc]

theorem utf8EncodeChar_ne_nil (c : Char) : utf8EncodeChar c ≠ [] := by
  by_cases h1 : c.toNat < 0x80
  · rw [utf8EncodeChar_eq_1 h1]; simp
  · by_cases h2 : c.toNat < 0x800
    · rw [utf8EncodeChar_eq_2 h1 h2]; simp
    · by_cases h3 : c.toNat < 0x10000
      · rw [utf8EncodeChar_eq_3 h1 h2 h3]; simp
      · rw [utf8EncodeChar_eq_4 h1 h2 h3]; simp

theorem utf8Encode_ne_nil {s : List Char} (h : s ≠ []) : utf8Encode s ≠ [] := by
  cases s with
  | nil => exact absurd rfl h
  | cons c cs =>
    rw [utf8Encode_cons]
    intro habs
    exact utf8EncodeChar_ne_nil c (List.append_eq_nil.mp habs).1

/-! ### Text helper lemmas for the header computation -/

theorem jsTrim_space_wrap (d : Char) (M : List Char) (e : Char)
    (hd : isJsSpace d = false) (he : isJsSpace e = false) :
    jsTrim (' ' :: ((d :: M) ++ [e])) = (d :: M) ++ [e] := by
  unfold jsTrim
  have h1 : (' ' :: ((d :: M) ++ [e])).dropWhile isJsSpace = (d :: M) ++ [e] := by
    rw [List.dropWhile_cons, if_pos (by decide), List.cons_append, List.dropWhile_cons, hd]
    rfl
  rw [h1]
  have h2 : ((d :: M) ++ [e]).reverse = e :: (d :: M).reverse := by
    rw [List.reverse_append]
    rfl
  rw [h2, List.dropWhile_cons, he]
  simp

theorem jsTrim_fixpoint {l : List Char} (h : jsTrim l = l) :
    l.dropWhile isJsSpace = l ∧ l.reverse.dropWhile isJsSpace = l.reverse := by
  have hlen1 : (l.dropWhile isJsSpace).length ≤ l.length :=
    (List.dropWhile_suffix isJsSpace).length_le
  have hlen2 : ((l.dropWhile isJsSpace).reverse.dropWhile isJsSpace).length ≤
      (l.dropWhile isJsSpace).length := by
    have := (List.dropWhile_suffix (l := (l.dropWhile isJsSpace).reverse) isJsSpace).length_le
    simpa using this
  have hlen0 : (jsTrim l).length = l.length := by rw [h]
  unfold jsTrim at hlen0
  rw [List.length_reverse] at hlen0
  have he1 : l.dropWhile isJsSpace = l :=
    (List.dropWhile_suffix isJsSpace).eq_of_length (by omega)
  refine ⟨he1, ?_⟩
  have he2 : (l.dropWhile isJsSpace).reverse.dropWhile isJsSpace =
      (l.dropWhile isJsSpace).reverse :=
    (List.dropWhile_suffix isJsSpace).eq_of_length (by rw [List.length_reverse]; omega)
  rwa [he1] at he2

theorem jsTrim_space_cons_trimmed {ct : List Char} (h : jsTrim ct = ct) :
    jsTrim (' ' :: ct) = ct := by
  obtain ⟨h1, h2⟩ := jsTrim_fixpoint h
  unfold jsTrim
  rw [List.dropWhile_cons, if_pos (by decide), h1, h2, List.reverse_reverse]

theorem takeWhile_append_eq_left {p : Char → Bool} {A : List Char}
    (h : (A.takeWhile p).length ≠ A.length) (X : List Char) :
    (A ++ X).takeWhile p = A.takeWhile p := by
  rw [List.takeWhile_append, if_neg h]

theorem takeWhile_append_stop {p : Char → Bool} {A : List Char}
    (hA : ∀ c ∈ A, p c = true) {d : Char} (hd : p d = false) (Y : List Char) :
    (A ++ d :: Y).takeWhile p = A := by
  induction A with
  | nil =>
    rw [List.nil_append, List.takeWhile_cons, hd]
    simp
  | cons a A' ih =>
    rw [List.cons_append, List.takeWhile_cons, hA a (by simp),
      ih fun c hc => hA c (by simp [hc])]
    simp

/-! ### The well-formed encoder for the round-trip claim -/

/-- One tuple to encode: field name, optional filename, optional content
type, payload bytes. -/
structure RawPart where
  name : List Char
  filename : Option (List Char)
  contentType : Option (List Char)
  payload : List Nat
deriving DecidableEq, Repr

/-- The boundary byte pattern: two dashes followed by the encoded
boundary. -/
def boundaryPattern (B : List Char) : List Nat :=
  utf8Encode ('-' :: '-' :: B)

/-- The Content-Disposition line of an encoded part. -/
def dispLine (p : RawPart) : List Char :=
  "Content-Disposition: form-data; name=\"".toList ++ p.name ++
    ('"' ::
      (match p.filename with
       | some fn => "; filename=\"".toList ++ fn ++ ['"']
       | none => []))

/-- The header block of an encoded part: the disposition line, plus an
optional Content-Type line separated by one CRLF. -/
def headerBlock (p : RawPart) : List Char :=
  dispLine p ++
    (match p.contentType with
     | some ct => '\r' :: '\n' :: ("Content-Type: ".toList ++ ct)
     | none => [])

/-- The raw part block between a boundary-CRLF and the next boundary:
headers, CRLFCRLF, payload, CRLF. -/
def encodeBlockBytes (p : RawPart) : List Nat :=
  utf8Encode (headerBlock p) ++ ([13, 10, 13, 10] ++ (p.payload ++ [13, 10]))

/-- The portion of the body following the first boundary marker. -/
def encodeRest (bb : List Nat) : List RawPart → List Nat
  | [] => [45, 45]
  | p :: ps => 13 :: 10 :: (encodeBlockBytes p ++ bb ++ encodeRest bb ps)

/-- A well-formed multipart body for boundary B: each part introduced by
the boundary marker, a CRLF, its header block ending in CRLFCRLF, the
payload and a CRLF, with a terminal double-dash boundary. -/
def encodeBody (B : List Char) (ps : List RawPart) : List Nat :=
  boundaryPattern B ++ encodeRest (boundaryPattern B) ps

/-- The Part the parser is expected to produce for an encoded tuple. -/
def expectedPart (p : RawPart) : Part :=
  { name := p.name, filename := p.filename, contentType := p.contentType, data := p.payload }

/-- Well-formedness of one tuple: nonempty name free of quote, CR and
LF; a filename, when present, nonempty and free of quote, CR and LF,
with the name then not ending in the text filename= (which would defeat
the parser's attribute regex); a content type, when present, nonempty,
free of CR and LF and invariant under trimming. -/
def wellFormedRawPart (p : RawPart) : Bool :=
  !p.name.isEmpty && !p.name.contains '"' && !p.name.contains '\r' && !p.name.contains '\n' &&
  (match p.filename with
   | some fn =>
     !fn.isEmpty && !fn.contains '"' && !fn.contains '\r' && !fn.contains '\n' &&
       !(List.isSuffixOf "filename=".toList p.name)
   | none => true) &&
  (match p.contentType with
   | some ct => !ct.isEmpty && !ct.contains '\r' && !ct.contains '\n' && (jsTrim ct == ct)
   | none => true)

/-! ### Pointwise facts for the regex scans -/

theorem getElem?_eq_of_take_drop_eq {α : Type} {l pat : List α} {j m : Nat}
    (h : (l.drop j).take pat.length = pat) (hm : m < pat.length) : l[j + m]? = pat[m]? := by
  rw [← h, List.getElem?_take_of_lt hm, List.getElem?_drop]

theorem isPrefixOf_pointwise {key l : List Char} {j : Nat}
    (h : key.isPrefixOf (l.drop j) = true) :
    ∀ m, m < key.length → l[j + m]? = key[m]? := by
  intro m hm
  have hp := List.isPrefixOf_iff_prefix.mp h
  have ht := List.prefix_iff_eq_take.mp hp
  exact getElem?_eq_of_take_drop_eq ht.symm hm

theorem capMatchAt_false_of_not_pfx {key s : List Char} {j : Nat}
    (h : key.isPrefixOf (s.drop j) = false) : capMatchAt key s j = false := by
  unfold capMatchAt
  rw [h]
  rfl

theorem capMatchAt_false_of_empty_run {key s : List Char} {j : Nat}
    (h : ((s.drop j).drop key.length).takeWhile (fun c => c != '"') = []) :
    capMatchAt key s j = false := by
  unfold capMatchAt
  rw [h]
  simp

theorem isPrefixOf_append_confined {key P : List Char} (X : List Char) {j : Nat}
    (h : j + key.length ≤ P.length) :
    key.isPrefixOf ((P ++ X).drop j) = key.isPrefixOf (P.drop j) := by
  rw [Bool.eq_iff_iff, List.isPrefixOf_iff_prefix, List.isPrefixOf_iff_prefix,
    List.prefix_iff_eq_take, List.prefix_iff_eq_take,
    List.drop_append_of_le_length (by omega),
    List.take_append_of_le_length (by rw [List.length_drop]; omega)]

/-- In a list of the shape Q, quote, mid, quote, S, tail with quote-free
Q, mid and S, a quote strictly before the end of S is the one after Q or
the one after mid. -/
theorem quote_pos {Q mid S tail2 : List Char}
    (hQ : '"' ∉ Q) (hmid : '"' ∉ mid) (hS : '"' ∉ S) {k : Nat}
    (hk : (Q ++ '"' :: (mid ++ '"' :: (S ++ tail2)))[k]? = some '"')
    (hlt : k < Q.length + mid.length + S.length + 2) :
    k = Q.length ∨ k = Q.length + mid.length + 1 := by
  rcases Nat.lt_or_ge k Q.length with hcase | hcase
  · rw [List.getElem?_append_left hcase] at hk
    exact absurd (List.getElem?_mem hk) hQ
  · rw [List.getElem?_append_right hcase] at hk
    rcases Nat.eq_or_lt_of_le hcase with heq | hgt
    · exact Or.inl heq.symm
    · have hm : k - Q.length = (k - Q.length - 1) + 1 := by omega
      rw [hm, List.getElem?_cons_succ] at hk
      rcases Nat.lt_or_ge (k - Q.length - 1) mid.length with hc2 | hc2
      · rw [List.getElem?_append_left hc2] at hk
        exact absurd (List.getElem?_mem hk) hmid
      · rw [List.getElem?_append_right hc2] at hk
        rcases Nat.eq_or_lt_of_le hc2 with heq2 | hgt2
        · right
          omega
        · have hm2 : k - Q.length - 1 - mid.length = (k - Q.length - 1 - mid.length - 1) + 1 := by
            omega
          rw [hm2, List.getElem?_cons_succ] at hk
          rw [List.getElem?_append_left (by omega)] at hk
          exact absurd (List.getElem?_mem hk) hS

theorem isPrefixOf_append_self (k Y : List Char) : k.isPrefixOf (k ++ Y) = true :=
  List.isPrefixOf_iff_prefix.mpr ⟨Y, rfl⟩

theorem not_mem_of_contains_false {c : Char} {l : List Char} (h : l.contains c = false) :
    c ∉ l := by
  intro hmem
  have h2 : l.contains c = true := by
    simp only [List.contains_eq_any_beq, List.any_eq_true]
    exact ⟨c, hmem, beq_self_eq_true c⟩
  rw [h] at h2
  cases h2

theorem takeWhile_ne_quote {N : List Char} (hNq : '"' ∉ N) (Y : List Char) :
    (N ++ '"' :: Y).takeWhile (fun c => c != '"') = N := by
  apply takeWhile_append_stop
  · intro c hc
    exact bne_iff_ne.mpr fun he => hNq (he ▸ hc)
  · decide

/-- No match of the quoted-attribute pattern can start at offset 7 of
the canonical disposition value: the byte there is the t of form-data. -/
theorem no_fkey_match_at_7 {Y : List Char}
    (hpfx : ("filename=\"".toList).isPrefixOf
      (("form-data; name=\"".toList ++ Y).drop 7) = true) : False := by
  have h := isPrefixOf_pointwise hpfx 0 (by decide)
  have h7 : (("form-data; name=\"".toList : List Char) ++ Y)[7 + 0]? = some 't' := by
    rw [List.getElem?_append_left (by decide)]
    decide
  rw [h7] at h
  have : 't' = 'f' := by
    have := h.symm
    simp only [List.getElem?_cons_zero] at this
    exact (Option.some.inj this).symm
  cases this

/-- A match of filename-quote starting at 8 + the name length forces the
name to be at least 9 long (otherwise the pattern would cover the quote
that opens the name value). -/
theorem fkey_match_at_8N_long {N tail : List Char} (hlen : N.length ≤ 8)
    (hpfx : ("filename=\"".toList).isPrefixOf
      (("form-data; name=\"".toList ++ (N ++ tail)).drop (8 + N.length)) = true) : False := by
  have h10 : ("filename=\"".toList : List Char).length = 10 := by decide
  have h := isPrefixOf_pointwise hpfx (8 - N.length) (by rw [h10]; omega)
  have h16 : (("form-data; name=\"".toList : List Char) ++ (N ++ tail))[8 + N.length +
      (8 - N.length)]? = some '"' := by
    have he : 8 + N.length + (8 - N.length) = 16 := by omega
    rw [he, List.getElem?_append_left (by decide)]
    decide
  rw [h16] at h
  have hq : ("filename=\"".toList : List Char)[8 - N.length]? = some '"' := h.symm
  have hq9 : (("filename=\"".toList : List Char).take 9)[8 - N.length]? = some '"' := by
    rw [List.getElem?_take_of_lt (by omega)]
    exact hq
  have : ('"' : Char) ∈ ("filename=\"".toList : List Char).take 9 := List.getElem?_mem hq9
  revert this
  decide

/-- A match of filename-quote starting at 8 + the name length, when the
name is at least 9 long, forces the name to end in the text filename=. -/
theorem fkey_match_at_8N_suffix {N tail : List Char} (hlen : 9 ≤ N.length)
    (hpfx : ("filename=\"".toList).isPrefixOf
      (("form-data; name=\"".toList ++ (N ++ tail)).drop (8 + N.length)) = true) :
    "filename=".toList <:+ N := by
  have h17 : ("form-data; name=\"".toList : List Char).length = 17 := by decide
  have h10 : ("filename=\"".toList : List Char).length = 10 := by decide
  have hdropeq : N.drop (N.length - 9) = "filename=".toList := by
    apply List.ext_getElem?
    intro i
    rcases Nat.lt_or_ge i 9 with hi | hi
    · have hpw := isPrefixOf_pointwise hpfx i (by rw [h10]; omega)
      rw [List.getElem?_append_right (by omega), h17] at hpw
      rw [List.getElem?_append_left (by omega)] at hpw
      have hidx : 8 + N.length + i - 17 = N.length - 9 + i := by omega
      rw [hidx] at hpw
      have hfk : ("filename=\"".toList : List Char)[i]? =
          ("filename=".toList : List Char)[i]? := by
        rw [show ("filename=".toList : List Char) =
          ("filename=\"".toList : List Char).take 9 from rfl, List.getElem?_take_of_lt hi]
      rw [List.getElem?_drop]
      rw [hpw, hfk]
    · have e1 : (N.drop (N.length - 9))[i]? = none :=
        List.getElem?_eq_none (by rw [List.length_drop]; omega)
      have e2 : ("filename=".toList : List Char)[i]? = none :=
        List.getElem?_eq_none
          (by have h9 : ("filename=".toList : List Char).length = 9 := by decide
              omega)
      rw [e1, e2]
  have := hdropeq ▸ List.drop_suffix (N.length - 9) N
  exact this

/-- The name attribute regex captures exactly the encoded name: the
leftmost occurrence of the pattern starts at offset 11 of the canonical
disposition value. -/
theorem jsMatchCapture_name (N F : List Char) (hN : N ≠ []) (hNq : '"' ∉ N) :
    jsMatchCapture ("name=\"".toList) ("form-data; name=\"".toList ++ (N ++ '"' :: F)) =
      some N := by
  have h17 : ("form-data; name=\"".toList : List Char).length = 17 := by decide
  have h6 : ("name=\"".toList : List Char).length = 6 := by decide
  set cdv := ("form-data; name=\"".toList : List Char) ++ (N ++ '"' :: F) with hcdv
  have hlen : cdv.length = 18 + N.length + F.length := by
    rw [hcdv]
    simp only [List.length_append, List.length_cons, h17]
    omega
  have hdrop11 : cdv.drop 11 = ("name=\"".toList : List Char) ++ (N ++ '"' :: F) := by
    rw [hcdv, List.drop_append_of_le_length (by rw [h17]; omega)]
    congr 1
  have hrun : ((cdv.drop 11).drop ("name=\"".toList : List Char).length).takeWhile
      (fun c => c != '"') = N := by
    rw [hdrop11, List.drop_left]
    exact takeWhile_ne_quote hNq F
  have hemp : N.isEmpty = false := by
    rcases Bool.eq_false_or_eq_true N.isEmpty with hb | hb
    · exact absurd (List.isEmpty_iff.mp hb) hN
    · exact hb
  have hmatch : capMatchAt ("name=\"".toList) cdv 11 = true := by
    unfold capMatchAt
    rw [hrun, hdrop11, isPrefixOf_append_self, hemp, h6, hlen]
    simp only [Bool.true_and, Bool.not_false]
    rw [decide_eq_true_eq]
    omega
  have hmin : ∀ j, 0 ≤ j → j < 11 → capMatchAt ("name=\"".toList) cdv j = false := by
    intro j _ hj
    apply capMatchAt_false_of_not_pfx
    rw [hcdv, isPrefixOf_append_confined _ (by rw [h17, h6]; omega)]
    interval_cases j <;> decide
  have hfi : firstIdx (capMatchAt ("name=\"".toList) cdv) cdv.length 0 = some 11 :=
    firstIdx_intro hmatch (by omega) (by omega) hmin
  unfold jsMatchCapture
  rw [hfi]
  simp only [Option.map_some']
  rw [hrun]

/-- When the encoded part has no filename attribute, the filename regex
does not match anywhere in the disposition value. -/
theorem jsMatchCapture_filename_absent (N : List Char) (hNq : '"' ∉ N) :
    jsMatchCapture ("filename=\"".toList) ("form-data; name=\"".toList ++ (N ++ ['"'])) =
      none := by
  have h17 : ("form-data; name=\"".toList : List Char).length = 17 := by decide
  have h10 : ("filename=\"".toList : List Char).length = 10 := by decide
  have h16 : ("form-data; name=".toList : List Char).length = 16 := by decide
  set cdv := ("form-data; name=\"".toList : List Char) ++ (N ++ ['"']) with hcdv
  have hlen : cdv.length = 18 + N.length := by
    rw [hcdv]
    simp only [List.length_append, List.length_cons, List.length_nil, h17]
    omega
  have hmin : ∀ j, 0 ≤ j → j < 0 + cdv.length →
      capMatchAt ("filename=\"".toList) cdv j = false := by
    intro j _ hjlt
    rcases Bool.eq_false_or_eq_true (("filename=\"".toList).isPrefixOf (cdv.drop j)) with
      hb | hb
    case inr => exact capMatchAt_false_of_not_pfx hb
    case inl =>
      have h9 := isPrefixOf_pointwise hb 9 (by rw [h10]; omega)
      have h9' : cdv[j + 9]? = some '"' := by rw [h9]; decide
      have hlt2 : j + 9 < cdv.length := by
        rcases List.getElem?_eq_some.mp h9' with ⟨hh, -⟩
        exact hh
      have hshape : cdv = ("form-data; name=".toList : List Char) ++
          '"' :: (N ++ '"' :: (([] : List Char) ++ [])) := by
        rw [hcdv]
        rw [show ("form-data; name=\"".toList : List Char) =
          "form-data; name=".toList ++ ['"'] from rfl]
        simp
      rw [hshape] at h9'
      have hq := quote_pos (by decide) hNq (by simp) h9'
        (by rw [h16, List.length_nil]; omega)
      rw [h16] at hq
      rcases hq with hq | hq
      · have hj : j = 7 := by omega
        subst hj
        rw [hcdv] at hb
        exact False.elim (no_fkey_match_at_7 hb)
      · have hj : j = 8 + N.length := by omega
        apply capMatchAt_false_of_empty_run
        rw [List.drop_drop, h10, List.drop_eq_nil_of_le (by omega)]
        rfl
  unfold jsMatchCapture
  rw [firstIdx_eq_none hmin]
  rfl

/-- With a filename attribute present and a name not ending in the text
filename=, the filename regex captures exactly the encoded filename. -/
theorem jsMatchCapture_filename_present (N FN : List Char) (hNq : '"' ∉ N)
    (hsfx : ¬("filename=".toList <:+ N)) (hFN : FN ≠ []) (hFNq : '"' ∉ FN) :
    jsMatchCapture ("filename=\"".toList)
      ("form-data; name=\"".toList ++ (N ++ '"' :: ("; filename=\"".toList ++ (FN ++ ['"'])))) =
      some FN := by
  have h17 : ("form-data; name=\"".toList : List Char).length = 17 := by decide
  have h10 : ("filename=\"".toList : List Char).length = 10 := by decide
  have h16 : ("form-data; name=".toList : List Char).length = 16 := by decide
  set cdv := ("form-data; name=\"".toList : List Char) ++
    (N ++ '"' :: ("; filename=\"".toList ++ (FN ++ ['"']))) with hcdv
  have hlen : cdv.length = 31 + N.length + FN.length := by
    rw [hcdv]
    simp only [List.length_append, List.length_cons, List.length_nil, h17,
      show ("; filename=\"".toList : List Char).length = 12 from by decide]
    omega
  have hsplit : cdv =
      (("form-data; name=\"".toList : List Char) ++ (N ++ ['"', ';', ' '])) ++
        (("filename=\"".toList : List Char) ++ (FN ++ ['"'])) := by
    rw [hcdv,
      show ("; filename=\"".toList : List Char) = [';', ' '] ++ "filename=\"".toList from rfl]
    simp
  have hlenA : (("form-data; name=\"".toList : List Char) ++ (N ++ ['"', ';', ' '])).length =
      20 + N.length := by
    simp only [List.length_append, List.length_cons, List.length_nil, h17]
    omega
  have hdropj0 : cdv.drop (20 + N.length) =
      ("filename=\"".toList : List Char) ++ (FN ++ ['"']) := by
    rw [hsplit, List.drop_left' hlenA]
  have hrun : ((cdv.drop (20 + N.length)).drop ("filename=\"".toList : List Char).length).takeWhile
      (fun c => c != '"') = FN := by
    rw [hdropj0, List.drop_left]
    have : FN ++ ['"'] = FN ++ '"' :: [] := rfl
    rw [this]
    exact takeWhile_ne_quote hFNq []
  have hemp : FN.isEmpty = false := by
    rcases Bool.eq_false_or_eq_true FN.isEmpty with hb | hb
    · exact absurd (List.isEmpty_iff.mp hb) hFN
    · exact hb
  have hmatch : capMatchAt ("filename=\"".toList) cdv (20 + N.length) = true := by
    unfold capMatchAt
    rw [hrun, hdropj0, isPrefixOf_append_self, hemp, h10, hlen]
    simp only [Bool.true_and, Bool.not_false]
    rw [decide_eq_true_eq]
    omega
  have hmin : ∀ j, 0 ≤ j → j < 20 + N.length →
      capMatchAt ("filename=\"".toList) cdv j = false := by
    intro j _ hjlt
    rcases Bool.eq_false_or_eq_true (("filename=\"".toList).isPrefixOf (cdv.drop j)) with
      hb | hb
    case inr => exact capMatchAt_false_of_not_pfx hb
    case inl =>
      have h9 := isPrefixOf_pointwise hb 9 (by rw [h10]; omega)
      have h9' : cdv[j + 9]? = some '"' := by rw [h9]; decide
      have hshape : cdv = ("form-data; name=".toList : List Char) ++
          '"' :: (N ++ '"' :: (("; filename=".toList : List Char) ++
            ('"' :: (FN ++ ['"'])))) := by
        rw [hcdv,
          show ("form-data; name=\"".toList : List Char) =
            "form-data; name=".toList ++ ['"'] from rfl,
          show ("; filename=\"".toList : List Char) =
            "; filename=".toList ++ ['"'] from rfl]
        simp
      rw [hshape] at h9'
      have hq := quote_pos (by decide) hNq (by decide) h9'
        (by rw [h16, show ("; filename=".toList : List Char).length = 11 from by decide]
            omega)
      rw [h16] at hq
      rcases hq with hq | hq
      · have hj : j = 7 := by omega
        subst hj
        rw [hcdv] at hb
        exact False.elim (no_fkey_match_at_7 hb)
      · have hj : j = 8 + N.length := by omega
        subst hj
        rw [hcdv] at hb
        rcases Nat.lt_or_ge N.length 9 with hlen9 | hlen9
        · exact False.elim (fkey_match_at_8N_long (by omega) hb)
        · exact False.elim (hsfx (fkey_match_at_8N_suffix hlen9 hb))
  have hfi : firstIdx (capMatchAt ("filename=\"".toList) cdv) cdv.length 0 =
      some (20 + N.length) :=
    firstIdx_intro hmatch (by omega) (by omega) hmin
  unfold jsMatchCapture
  rw [hfi]
  simp only [Option.map_some']
  rw [hrun]

/-- With an empty quoted filename attribute, the filename regex matches
nowhere: the capture group requires at least one character. -/
theorem jsMatchCapture_filename_eq_empty (N : List Char) (hNq : '"' ∉ N)
    (hsfx : ¬("filename=".toList <:+ N)) :
    jsMatchCapture ("filename=\"".toList)
      ("form-data; name=\"".toList ++ (N ++ '"' :: ("; filename=\"".toList ++ ['"']))) =
      none := by
  have h17 : ("form-data; name=\"".toList : List Char).length = 17 := by decide
  have h10 : ("filename=\"".toList : List Char).length = 10 := by decide
  have h16 : ("form-data; name=".toList : List Char).length = 16 := by decide
  set cdv := ("form-data; name=\"".toList : List Char) ++
    (N ++ '"' :: ("; filename=\"".toList ++ ['"'])) with hcdv
  have hlen : cdv.length = 31 + N.length := by
    rw [hcdv]
    simp only [List.length_append, List.length_cons, List.length_nil, h17,
      show ("; filename=\"".toList : List Char).length = 12 from by decide]
    omega
  have hsplit30 : cdv =
      (("form-data; name=\"".toList : List Char) ++ (N ++ ('"' :: "; filename=\"".toList))) ++
        ['"'] := by
    rw [hcdv]
    simp
  have hlen30 : (("form-data; name=\"".toList : List Char) ++
      (N ++ ('"' :: "; filename=\"".toList))).length = 30 + N.length := by
    simp only [List.length_append, List.length_cons, h17,
      show ("; filename=\"".toList : List Char).length = 12 from by decide]
    omega
  have hsplit29 : cdv =
      (("form-data; name=\"".toList : List Char) ++ (N ++ ('"' :: "; filename=".toList))) ++
        ['"', '"'] := by
    rw [hcdv,
      show ("; filename=\"".toList : List Char) = "; filename=".toList ++ ['"'] from rfl]
    simp
  have hlen29 : (("form-data; name=\"".toList : List Char) ++
      (N ++ ('"' :: "; filename=".toList))).length = 29 + N.length := by
    simp only [List.length_append, List.length_cons, h17,
      show ("; filename=".toList : List Char).length = 11 from by decide]
    omega
  have hmin : ∀ j, 0 ≤ j → j < 0 + cdv.length →
      capMatchAt ("filename=\"".toList) cdv j = false := by
    intro j _ hjlt
    rcases Bool.eq_false_or_eq_true (("filename=\"".toList).isPrefixOf (cdv.drop j)) with
      hb | hb
    case inr => exact capMatchAt_false_of_not_pfx hb
    case inl =>
      have h9 := isPrefixOf_pointwise hb 9 (by rw [h10]; omega)
      have h9' : cdv[j + 9]? = some '"' := by rw [h9]; decide
      have hlt2 : j + 9 < cdv.length := by
        rcases List.getElem?_eq_some.mp h9' with ⟨hh, -⟩
        exact hh
      rcases Nat.lt_or_ge (j + 9) (29 + N.length) with hcase | hcase
      · have hshape : cdv = ("form-data; name=".toList : List Char) ++
            '"' :: (N ++ '"' :: (("; filename=".toList : List Char) ++ ('"' :: ['"']))) := by
          rw [hcdv,
            show ("form-data; name=\"".toList : List Char) =
              "form-data; name=".toList ++ ['"'] from rfl,
            show ("; filename=\"".toList : List Char) =
              "; filename=".toList ++ ['"'] from rfl]
          simp
        rw [hshape] at h9'
        have hq := quote_pos (by decide) hNq (by decide) h9'
          (by rw [h16, show ("; filename=".toList : List Char).length = 11 from by decide]
              omega)
        rw [h16] at hq
        rcases hq with hq | hq
        · have hj : j = 7 := by omega
          subst hj
          rw [hcdv] at hb
          exact False.elim (no_fkey_match_at_7 hb)
        · have hj : j = 8 + N.length := by omega
          subst hj
          rw [hcdv] at hb
          rcases Nat.lt_or_ge N.length 9 with hlen9 | hlen9
          · exact False.elim (fkey_match_at_8N_long (by omega) hb)
          · exact False.elim (hsfx (fkey_match_at_8N_suffix hlen9 hb))
      · rcases Nat.lt_or_ge (j + 9) (30 + N.length) with hcase2 | hcase2
        · -- j + 9 = 29 + N.length: the match would need a nonempty run, but only
          -- the final quote follows.
          have hj : j = 20 + N.length := by omega
          subst hj
          apply capMatchAt_false_of_empty_run
          rw [List.drop_drop, h10]
          have hdrop30 : cdv.drop (20 + N.length + 10) = ['"'] := by
            rw [show 20 + N.length + 10 = 30 + N.length from by omega, hsplit30,
              List.drop_left' hlen30]
          rw [hdrop30]
          rfl
        · -- j + 9 = 30 + N.length: position 8 of the pattern would have to be
          -- the equals sign, but the byte there is a quote.
          have hj : j = 21 + N.length := by omega
          have h8 := isPrefixOf_pointwise hb 8 (by rw [h10]; omega)
          have hq29 : cdv[j + 8]? = some '"' := by
            rw [hj, show 21 + N.length + 8 = 29 + N.length from by omega, hsplit29]
            rw [List.getElem?_append_right (by omega)]
            rw [hlen29, Nat.sub_self]
            rfl
          rw [hq29] at h8
          have : ('"' : Char) = '=' := by
            have h8' := h8.symm
            rw [show ("filename=\"".toList : List Char)[8]? = some '=' from rfl] at h8'
            exact (Option.some.inj h8.symm)▸ rfl
          cases this
  unfold jsMatchCapture
  rw [firstIdx_eq_none hmin]
  rfl

/-- The parsed value of the Content-Disposition header of an encoded
part. -/
def dispValue (p : RawPart) : List Char :=
  "form-data; name=\"".toList ++
    (p.name ++
      ('"' ::
        (match p.filename with
         | some fn => "; filename=\"".toList ++ (fn ++ ['"'])
         | none => [])))

theorem jsSplitLines_single {B : List Char} (h : ∀ c ∈ B, c ≠ '\n') :
    jsSplitLines B = [B] := by
  induction B using jsSplitLines.induct with
  | case1 => rfl
  | case2 rest ih => exact absurd rfl (h '\n' (by simp))
  | case3 rest ih => exact absurd rfl (h '\n' (by simp))
  | case4 c rest h1 h2 l ls heq ih =>
    rw [jsSplitLines.eq_4 c rest h1 h2, heq]
    have hr : jsSplitLines rest = [rest] := ih fun d hd => h d (by simp [hd])
    rw [hr] at heq
    injection heq with e1 e2
    rw [← e1, ← e2]
  | case5 c rest h1 h2 heq ih =>
    exact absurd heq (jsSplitLines_ne_nil rest)

theorem jsSplitLines_append_crlf {A : List Char} (hA : ∀ c ∈ A, c ≠ '\n' ∧ c ≠ '\r')
    {B : List Char} (hB : ∀ c ∈ B, c ≠ '\n') :
    jsSplitLines (A ++ '\r' :: '\n' :: B) = [A, B] := by
  induction A with
  | nil =>
    rw [List.nil_append, jsSplitLines.eq_2, jsSplitLines_single hB]
  | cons a A2 ih =>
    rw [List.cons_append]
    have hres := ih fun c hc => hA c (by simp [hc])
    rw [jsSplitLines.eq_4 a (A2 ++ '\r' :: '\n' :: B)
      (fun r1 har hrest => (hA a (by simp)).2 har)
      (fun han => (hA a (by simp)).1 han), hres]

theorem jsTrim_space_formdata (X2 : List Char) :
    jsTrim (' ' :: (("form-data; name=\"".toList : List Char) ++ (X2 ++ ['"']))) =
      ("form-data; name=\"".toList : List Char) ++ (X2 ++ ['"']) := by
  have hshape : ("form-data; name=\"".toList : List Char) ++ (X2 ++ ['"']) =
      ('f' :: ("orm-data; name=\"".toList ++ X2)) ++ ['"'] := by
    rw [show ("form-data; name=\"".toList : List Char) =
      'f' :: "orm-data; name=\"".toList from rfl]
    simp
  rw [hshape]
  exact jsTrim_space_wrap 'f' _ '"' (by decide) (by decide)

/-- The quote-terminated tail of a disposition value. -/
theorem dispTail_quote (p : RawPart) :
    ∃ X2, p.name ++
        ('"' ::
          (match p.filename with
           | some fn => ("; filename=\"".toList : List Char) ++ (fn ++ ['"'])
           | none => [])) = X2 ++ ['"'] := by
  cases hf : p.filename with
  | none => exact ⟨p.name, by simp⟩
  | some fn =>
    refine ⟨p.name ++ '"' :: ("; filename=\"".toList ++ fn), ?_⟩
    simp

theorem parseHeaderLine_disp (p : RawPart) :
    parseHeaderLine (dispLine p) = some ("content-disposition".toList, dispValue p) := by
  rw [parseHeaderLine_eq_lineEntrySpec]
  have hd : dispLine p = ("Content-Disposition: form-data; name=\"".toList : List Char) ++
      (p.name ++
        ('"' ::
          (match p.filename with
           | some fn => ("; filename=\"".toList : List Char) ++ (fn ++ ['"'])
           | none => []))) := by
    unfold dispLine
    rw [List.append_assoc]
    cases p.filename with
    | none => rfl
    | some fn => simp
  unfold lineEntrySpec
  rw [hd]
  have h38 : ("Content-Disposition: form-data; name=\"".toList : List Char).length = 38 := by
    decide
  rw [takeWhile_append_eq_left (by decide)]
  rw [show (("Content-Disposition: form-data; name=\"".toList : List Char).takeWhile
    (fun c => c != ':')) = "Content-Disposition".toList from by decide]
  rw [if_neg]
  · rw [show ("Content-Disposition".toList : List Char).length = 19 from by decide]
    rw [List.drop_append_of_le_length (by rw [h38]; omega)]
    rw [show ("Content-Disposition: form-data; name=\"".toList : List Char).drop 20 =
      ' ' :: "form-data; name=\"".toList from by decide]
    rw [List.cons_append]
    obtain ⟨X2, hX2⟩ := dispTail_quote p
    rw [hX2, jsTrim_space_formdata, ← hX2]
    rw [show jsToLower (jsTrim ("Content-Disposition".toList : List Char)) =
      "content-disposition".toList from by decide]
    unfold dispValue
    cases p.filename with
    | none => rfl
    | some fn => rfl
  · intro hor
    rcases hor with h0 | hlenc
    · rw [show ("Content-Disposition".toList : List Char).length = 19 from by decide] at h0
      cases h0
    · rw [show ("Content-Disposition".toList : List Char).length = 19 from by decide,
        List.length_append, h38] at hlenc
      omega

theorem parseHeaderLine_ctype {ct : List Char} (htrim : jsTrim ct = ct) :
    parseHeaderLine ("Content-Type: ".toList ++ ct) =
      some ("content-type".toList, ct) := by
  rw [parseHeaderLine_eq_lineEntrySpec]
  unfold lineEntrySpec
  have h14 : ("Content-Type: ".toList : List Char).length = 14 := by decide
  rw [takeWhile_append_eq_left (by decide)]
  rw [show (("Content-Type: ".toList : List Char).takeWhile (fun c => c != ':')) =
    "Content-Type".toList from by decide]
  rw [if_neg]
  · rw [show ("Content-Type".toList : List Char).length = 12 from by decide]
    rw [List.drop_append_of_le_length (by rw [h14]; omega)]
    rw [show ("Content-Type: ".toList : List Char).drop 13 = [' '] from by decide]
    rw [List.cons_append, List.nil_append, jsTrim_space_cons_trimmed htrim]
    rw [show jsToLower (jsTrim ("Content-Type".toList : List Char)) =
      "content-type".toList from by decide]
  · intro hor
    rcases hor with h0 | hlenc
    · rw [show ("Content-Type".toList : List Char).length = 12 from by decide] at h0
      cases h0
    · rw [show ("Content-Type".toList : List Char).length = 12 from by decide,
        List.length_append, h14] at hlenc
      omega

theorem objGet_one_hit (k v q : List Char) (h : (k == q) = true) :
    objGet [(k, v)] q = some v := by
  unfold objGet
  simp [List.filter, h]

theorem objGet_two_hit_first (k1 v1 k2 v2 q : List Char) (h1 : (k1 == q) = true)
    (h2 : (k2 == q) = false) : objGet [(k1, v1), (k2, v2)] q = some v1 := by
  unfold objGet
  simp [List.filter, h1, h2]

theorem objGet_two_hit_second (k1 v1 k2 v2 q : List Char) (h1 : (k1 == q) = false)
    (h2 : (k2 == q) = true) : objGet [(k1, v1), (k2, v2)] q = some v2 := by
  unfold objGet
  simp [List.filter, h1, h2]

theorem objGet_one_miss (k v q : List Char) (h : (k == q) = false) :
    objGet [(k, v)] q = none := by
  unfold objGet
  simp [List.filter, h]

theorem objGet_two_miss (k1 v1 k2 v2 q : List Char) (h1 : (k1 == q) = false)
    (h2 : (k2 == q) = false) : objGet [(k1, v1), (k2, v2)] q = none := by
  unfold objGet
  simp [List.filter, h1, h2]

/-! ### Locating the header separator in an encoded block -/

theorem seqMatch_pointwise {data pat : List Nat} {j : Nat} (h : seqMatchAt data pat j = true) :
    ∀ m, m < pat.length → data[j + m]? = pat[m]? := by
  intro m hm
  unfold seqMatchAt at h
  rw [decide_eq_true_eq] at h
  exact getElem?_eq_of_take_drop_eq h hm

theorem findSeq_crlf4_of_clean {hb tail : List Nat} (hclean : ∀ b ∈ hb, b ≠ 13 ∧ b ≠ 10) :
    findSequence (hb ++ ([13, 10, 13, 10] ++ tail)) [13, 10, 13, 10] 0 = some hb.length := by
  apply findSequence_intro (by decide) (seqMatchAt_here hb tail [13, 10, 13, 10])
    (Nat.zero_le _)
  intro j _ hj
  rcases Bool.eq_false_or_eq_true
    (seqMatchAt (hb ++ ([13, 10, 13, 10] ++ tail)) [13, 10, 13, 10] j) with hb2 | hb2
  case inr => exact hb2
  case inl =>
    have hpw := seqMatch_pointwise hb2 0 (by decide)
    rw [Nat.add_zero, List.getElem?_append_left hj] at hpw
    have h13 : hb[j]? = some 13 := by rw [hpw]; rfl
    exact absurd rfl (hclean 13 (List.getElem?_mem h13)).1

theorem findSeq_crlf4_of_ctype {E1 E2 tail : List Nat}
    (h1 : ∀ b ∈ E1, b ≠ 13 ∧ b ≠ 10) (h2 : ∀ b ∈ E2, b ≠ 13 ∧ b ≠ 10) :
    findSequence ((E1 ++ 13 :: 10 :: 67 :: E2) ++ ([13, 10, 13, 10] ++ tail))
      [13, 10, 13, 10] 0 = some (E1 ++ 13 :: 10 :: 67 :: E2).length := by
  apply findSequence_intro (by decide)
    (seqMatchAt_here (E1 ++ 13 :: 10 :: 67 :: E2) tail [13, 10, 13, 10]) (Nat.zero_le _)
  intro j _ hj
  rcases Bool.eq_false_or_eq_true
    (seqMatchAt ((E1 ++ 13 :: 10 :: 67 :: E2) ++ ([13, 10, 13, 10] ++ tail))
      [13, 10, 13, 10] j) with hb2 | hb2
  case inr => exact hb2
  case inl =>
    exfalso
    have hlenhb : (E1 ++ 13 :: 10 :: 67 :: E2).length = E1.length + 3 + E2.length := by
      simp [List.length_append]
      omega
    have hpw0 := seqMatch_pointwise hb2 0 (by decide)
    rw [Nat.add_zero, List.getElem?_append_left hj] at hpw0
    have h13 : (E1 ++ 13 :: 10 :: 67 :: E2)[j]? = some 13 := by rw [hpw0]; rfl
    rcases Nat.lt_or_ge j E1.length with hc | hc
    · rw [List.getElem?_append_left hc] at h13
      exact absurd rfl (h1 13 (List.getElem?_mem h13)).1
    · rw [List.getElem?_append_right hc] at h13
      rcases Nat.lt_or_ge (j - E1.length) 3 with hc2 | hc2
      · -- j is at the CRLF before the Content-Type line or at its first byte
        have hj0 : j - E1.length = 0 := by
          interval_cases hjm : (j - E1.length)
          · rfl
          · simp at h13
          · simp at h13
        -- then two positions later the byte is 67, not 13
        have hpw2 := seqMatch_pointwise hb2 2 (by decide)
        have hjlt : j + 2 < (E1 ++ 13 :: 10 :: 67 :: E2).length := by
          rw [hlenhb]
          omega
        rw [List.getElem?_append_left hjlt] at hpw2
        rw [List.getElem?_append_right (by omega)] at hpw2
        have hidx : j + 2 - E1.length = 2 := by omega
        rw [hidx] at hpw2
        simp at hpw2
      · have hm : j - E1.length = (j - E1.length - 3) + 3 := by omega
        rw [hm, List.getElem?_cons_succ, List.getElem?_cons_succ,
          List.getElem?_cons_succ] at h13
        exact absurd rfl (h2 13 (List.getElem?_mem h13)).1

theorem stripTrailingCRLF_append_crlf (l : List Nat) :
    stripTrailingCRLF (l ++ [13, 10]) = l := by
  unfold stripTrailingCRLF
  rw [if_pos (List.isSuffixOf_iff_suffix.mpr ⟨l, rfl⟩)]
  have harith : (l ++ [13, 10]).length - 2 = l.length := by
    simp [List.length_append]
  rw [harith, List.take_left]

theorem utf8Decode_headerBlock (p : RawPart) :
    utf8Decode (utf8Encode (headerBlock p)) = headerBlock p := by
  obtain ⟨t, ht⟩ : ∃ t, headerBlock p = 'C' :: t := by
    unfold headerBlock dispLine
    rw [show ("Content-Disposition: form-data; name=\"".toList : List Char) =
      'C' :: "ontent-Disposition: form-data; name=\"".toList from rfl]
    simp only [List.cons_append, List.append_assoc]
    exact ⟨_, rfl⟩
  rw [ht]
  exact utf8Decode_encode_ascii_head 'C' t (by decide)

theorem ne_nil_of_not_isEmpty {l : List Char} (h : (!l.isEmpty) = true) : l ≠ [] := by
  intro heq
  rw [heq] at h
  cases h

theorem wellFormed_facts {p : RawPart} (hwf : wellFormedRawPart p = true) :
    p.name ≠ [] ∧ '"' ∉ p.name ∧ '\r' ∉ p.name ∧ '\n' ∉ p.name ∧
    (∀ fn, p.filename = some fn →
      fn ≠ [] ∧ '"' ∉ fn ∧ '\r' ∉ fn ∧ '\n' ∉ fn ∧ ¬("filename=".toList <:+ p.name)) ∧
    (∀ ct, p.contentType = some ct → ct ≠ [] ∧ '\r' ∉ ct ∧ '\n' ∉ ct ∧ jsTrim ct = ct) := by
  unfold wellFormedRawPart at hwf
  simp only [Bool.and_eq_true] at hwf
  obtain ⟨⟨⟨⟨⟨h1, h2⟩, h3⟩, h4⟩, h5⟩, h6⟩ := hwf
  refine ⟨ne_nil_of_not_isEmpty h1,
    not_mem_of_contains_false (by simpa using h2),
    not_mem_of_contains_false (by simpa using h3),
    not_mem_of_contains_false (by simpa using h4), ?_, ?_⟩
  · intro fn hfn
    rw [hfn] at h5
    simp only [Bool.and_eq_true] at h5
    obtain ⟨⟨⟨⟨g1, g2⟩, g3⟩, g4⟩, g5⟩ := h5
    refine ⟨ne_nil_of_not_isEmpty g1,
      not_mem_of_contains_false (by simpa using g2),
      not_mem_of_contains_false (by simpa using g3),
      not_mem_of_contains_false (by simpa using g4), ?_⟩
    intro hsuf
    rw [List.isSuffixOf_iff_suffix.mpr hsuf] at g5
    cases g5
  · intro ct hctv
    rw [hctv] at h6
    simp only [Bool.and_eq_true] at h6
    obtain ⟨⟨⟨g1, g2⟩, g3⟩, g4⟩ := h6
    exact ⟨ne_nil_of_not_isEmpty g1,
      not_mem_of_contains_false (by simpa using g2),
      not_mem_of_contains_false (by simpa using g3), eq_of_beq g4⟩

theorem dispLine_chars (p : RawPart) (hn3 : '\r' ∉ p.name) (hn4 : '\n' ∉ p.name)
    (hfn : ∀ fn, p.filename = some fn → '\r' ∉ fn ∧ '\n' ∉ fn) :
    ∀ c ∈ dispLine p, c ≠ '\n' ∧ c ≠ '\r' := by
  intro c hc
  unfold dispLine at hc
  simp only [List.mem_append, List.mem_cons] at hc
  have hlit : ∀ d ∈ ("Content-Disposition: form-data; name=\"".toList : List Char),
      d ≠ '\n' ∧ d ≠ '\r' := by decide
  rcases hc with (hc1 | hc2) | hc3
  · exact hlit c hc1
  · exact ⟨fun h => hn4 (h ▸ hc2), fun h => hn3 (h ▸ hc2)⟩
  · rcases hc3 with hq | hrest
    · subst hq
      exact ⟨by decide, by decide⟩
    · cases hfv : p.filename with
      | none =>
        rw [hfv] at hrest
        simp at hrest
      | some fn =>
        rw [hfv] at hrest
        have hlit2 : ∀ d ∈ ("; filename=\"".toList : List Char), d ≠ '\n' ∧ d ≠ '\r' := by
          decide
        simp only [List.mem_append, List.mem_cons] at hrest
        rcases hrest with (hl | hm) | he
        · exact hlit2 c hl
        · exact ⟨fun h => (hfn fn hfv).2 (h ▸ hm), fun h => (hfn fn hfv).1 (h ▸ hm)⟩
        · simp at he
          subst he
          exact ⟨by decide, by decide⟩

theorem parseHeaders_headerBlock_none (p : RawPart) (hctv : p.contentType = none)
    (hdn : ∀ c ∈ dispLine p, c ≠ '\n') :
    parseHeaders (headerBlock p) = [("content-disposition".toList, dispValue p)] := by
  have hhb : headerBlock p = dispLine p := by
    unfold headerBlock
    rw [hctv]
    dsimp only
    exact List.append_nil _
  rw [hhb]
  unfold parseHeaders
  rw [jsSplitLines_single hdn]
  simp only [List.filterMap_cons, List.filterMap_nil, parseHeaderLine_disp]

theorem parseHeaders_headerBlock_some (p : RawPart) (ct : List Char)
    (hctv : p.contentType = some ct)
    (hdn : ∀ c ∈ dispLine p, c ≠ '\n' ∧ c ≠ '\r')
    (hctn : ∀ c ∈ (("Content-Type: ".toList : List Char) ++ ct), c ≠ '\n')
    (htrim : jsTrim ct = ct) :
    parseHeaders (headerBlock p) =
      [("content-disposition".toList, dispValue p), ("content-type".toList, ct)] := by
  have hhb : headerBlock p =
      dispLine p ++ '\r' :: '\n' :: (("Content-Type: ".toList : List Char) ++ ct) := by
    unfold headerBlock
    rw [hctv]
  rw [hhb]
  unfold parseHeaders
  rw [jsSplitLines_append_crlf hdn hctn]
  simp only [List.filterMap_cons, List.filterMap_nil, parseHeaderLine_disp,
    parseHeaderLine_ctype htrim]

theorem dispValue_ne_nil (p : RawPart) : dispValue p ≠ [] := by
  unfold dispValue
  intro heq
  have h2 := congrArg List.length heq
  rw [List.length_append,
    show (("form-data; name=\"".toList : List Char)).length = 17 from by decide,
    List.length_nil] at h2
  omega

/-- parsePart recovers the original tuple from an encoded block. -/
theorem parsePart_encodeBlock (p : RawPart) (hwf : wellFormedRawPart p = true) :
    parsePart (encodeBlockBytes p) = some (expectedPart p) := by
  obtain ⟨hn1, hn2, hn3, hn4, hfn, hct⟩ := wellFormed_facts hwf
  have hdchars : ∀ c ∈ dispLine p, c ≠ '\n' ∧ c ≠ '\r' :=
    dispLine_chars p hn3 hn4 (fun fn h => ⟨(hfn fn h).2.2.1, (hfn fn h).2.2.2.1⟩)
  have hfind : findSequence (encodeBlockBytes p) [13, 10, 13, 10] 0 =
      some (utf8Encode (headerBlock p)).length := by
    cases hctv : p.contentType with
    | none =>
      have hhb : headerBlock p = dispLine p := by
        unfold headerBlock
        rw [hctv]
        dsimp only
        exact List.append_nil _
      unfold encodeBlockBytes
      rw [hhb]
      exact findSeq_crlf4_of_clean
        (utf8Encode_no_crlf (fun c hc => ⟨(hdchars c hc).2, (hdchars c hc).1⟩))
    | some ct =>
      have hhb : utf8Encode (headerBlock p) =
          utf8Encode (dispLine p) ++
            (13 :: 10 :: (67 :: utf8Encode (("ontent-Type: ".toList : List Char) ++ ct))) := by
        unfold headerBlock
        rw [hctv]
        dsimp only
        rw [utf8Encode_append]
        congr 1
      unfold encodeBlockBytes
      rw [hhb]
      exact findSeq_crlf4_of_ctype
        (utf8Encode_no_crlf (fun c hc => ⟨(hdchars c hc).2, (hdchars c hc).1⟩))
        (utf8Encode_no_crlf (by
          intro c hc
          have hlf : ∀ d ∈ ("ontent-Type: ".toList : List Char), d ≠ '\r' ∧ d ≠ '\n' := by
            decide
          rcases List.mem_append.mp hc with hl | hm
          · exact hlf c hl
          · exact ⟨fun h => (hct ct hctv).2.1 (h ▸ hm), fun h => (hct ct hctv).2.2.1 (h ▸ hm)⟩))
  have htake : (encodeBlockBytes p).take (utf8Encode (headerBlock p)).length =
      utf8Encode (headerBlock p) := by
    unfold encodeBlockBytes
    exact List.take_left _ _
  have hdrop : (encodeBlockBytes p).drop ((utf8Encode (headerBlock p)).length + 4) =
      p.payload ++ [13, 10] := by
    unfold encodeBlockBytes
    rw [List.drop_append]
    rfl
  unfold parsePart
  rw [hfind]
  dsimp only
  rw [htake, hdrop, utf8Decode_headerBlock, takeContentEnd_eq_strip,
    stripTrailingCRLF_append_crlf]
  cases hfv : p.filename with
  | none =>
    have hdv : dispValue p = ("form-data; name=\"".toList : List Char) ++ (p.name ++ ['"']) := by
      unfold dispValue
      rw [hfv]
    have hname : jsMatchCapture ("name=\"".toList) (dispValue p) = some p.name := by
      rw [hdv]
      exact jsMatchCapture_name p.name [] hn1 hn2
    have hfile : jsMatchCapture ("filename=\"".toList) (dispValue p) = none := by
      rw [hdv]
      exact jsMatchCapture_filename_absent p.name hn2
    cases hctv : p.contentType with
    | none =>
      rw [parseHeaders_headerBlock_none p hctv (fun c hc => (hdchars c hc).1)]
      rw [objGet_one_hit _ _ _ (by decide)]
      dsimp only
      rw [if_neg (dispValue_ne_nil p), hname, hfile,
        objGet_one_miss _ _ _ (by decide)]
      unfold expectedPart
      rw [hfv, hctv]
      rfl
    | some ct =>
      have hctfacts := hct ct hctv
      rw [parseHeaders_headerBlock_some p ct hctv hdchars
        (by
          intro c hc
          have hlf : ∀ d ∈ ("Content-Type: ".toList : List Char), d ≠ '\n' := by decide
          rcases List.mem_append.mp hc with hl | hm
          · exact hlf c hl
          · exact fun h => hctfacts.2.2.1 (h ▸ hm))
        hctfacts.2.2.2]
      rw [objGet_two_hit_first _ _ _ _ _ (by decide) (by decide)]
      dsimp only
      rw [if_neg (dispValue_ne_nil p), hname, hfile,
        objGet_two_hit_second _ _ _ _ _ (by decide) (by decide)]
      unfold expectedPart jsOrNull
      rw [hfv, hctv]
      dsimp only
      rw [if_neg hctfacts.1]
      rfl
  | some fn =>
    have hfnfacts := hfn fn hfv
    have hdv : dispValue p = ("form-data; name=\"".toList : List Char) ++
        (p.name ++ '"' :: (("; filename=\"".toList : List Char) ++ (fn ++ ['"']))) := by
      unfold dispValue
      rw [hfv]
    have hname : jsMatchCapture ("name=\"".toList) (dispValue p) = some p.name := by
      rw [hdv]
      exact jsMatchCapture_name p.name _ hn1 hn2
    have hfile : jsMatchCapture ("filename=\"".toList) (dispValue p) = some fn := by
      rw [hdv]
      exact jsMatchCapture_filename_present p.name fn hn2 hfnfacts.2.2.2.2
        hfnfacts.1 hfnfacts.2.1
    cases hctv : p.contentType with
    | none =>
      rw [parseHeaders_headerBlock_none p hctv (fun c hc => (hdchars c hc).1)]
      rw [objGet_one_hit _ _ _ (by decide)]
      dsimp only
      rw [if_neg (dispValue_ne_nil p), hname, hfile,
        objGet_one_miss _ _ _ (by decide)]
      unfold expectedPart
      rw [hfv, hctv]
      rfl
    | some ct =>
      have hctfacts := hct ct hctv
      rw [parseHeaders_headerBlock_some p ct hctv hdchars
        (by
          intro c hc
          have hlf : ∀ d ∈ ("Content-Type: ".toList : List Char), d ≠ '\n' := by decide
          rcases List.mem_append.mp hc with hl | hm
          · exact hlf c hl
          · exact fun h => hctfacts.2.2.1 (h ▸ hm))
        hctfacts.2.2.2]
      rw [objGet_two_hit_first _ _ _ _ _ (by decide) (by decide)]
      dsimp only
      rw [if_neg (dispValue_ne_nil p), hname, hfile,
        objGet_two_hit_second _ _ _ _ _ (by decide) (by decide)]
      unfold expectedPart jsOrNull
      rw [hfv, hctv]
      dsimp only
      rw [if_neg hctfacts.1]
      rfl

theorem encodeRest_length (bb : List Nat) (ps : List RawPart) :
    ps.length ≤ (encodeRest bb ps).length := by
  induction ps with
  | nil => simp [encodeRest]
  | cons p ps ih =>
    simp only [encodeRest, List.length_cons, List.length_append]
    omega

/-- Running the parsing loop from a cursor sitting right after a matched
boundary, over a body tail produced by the encoder, yields exactly the
encoded tuples. -/
theorem partsLoop_encodeRest (B : List Char) (hB : B ≠ []) :
    ∀ (ps : List RawPart) (pre : List Nat) (acc : List Part) (fuel : Nat),
      (∀ p ∈ ps, wellFormedRawPart p = true) →
      (∀ p ∈ ps, ∀ j < (encodeBlockBytes p).length,
        seqMatchAt (encodeBlockBytes p ++ boundaryPattern B) (boundaryPattern B) j = false) →
      ps.length < fuel →
      partsLoopFuel (pre ++ encodeRest (boundaryPattern B) ps) (boundaryPattern B)
        fuel pre.length acc = acc.reverse ++ ps.map expectedPart := by
  have hbb3 : 3 ≤ (boundaryPattern B).length := by
    unfold boundaryPattern
    rw [utf8Encode_dash_dash B]
    have h1 : 0 < (utf8Encode B).length := List.length_pos.mpr (utf8Encode_ne_nil hB)
    simp only [List.length_cons]
    omega
  have hbbne : boundaryPattern B ≠ [] := by
    intro h
    rw [h] at hbb3
    simp at hbb3
  intro ps
  induction ps with
  | nil =>
    intro pre acc fuel hwf hocc hfuel
    cases fuel with
    | zero => exact absurd hfuel (Nat.not_lt_zero _)
    | succ f =>
      rw [show encodeRest (boundaryPattern B) [] = [45, 45] from rfl]
      rw [partsLoopFuel_succ]
      rw [if_pos (by
        rw [List.length_append, show ([45, 45] : List Nat).length = 2 from rfl]
        omega)]
      have hsk : skipPos (pre ++ [45, 45]) pre.length = pre.length := by
        unfold skipPos
        rw [if_neg]
        intro hand
        have h0 : (pre ++ [45, 45]).getD pre.length 0 = 45 := by
          simpa using getD_append_right pre [45, 45] 0
        rw [h0] at hand
        exact absurd hand.1 (by decide)
      rw [hsk]
      have hnone : findSequence (pre ++ [45, 45]) (boundaryPattern B) pre.length = none := by
        apply findSequence_eq_none
        intro j hj
        rcases Bool.eq_false_or_eq_true
          (seqMatchAt (pre ++ [45, 45]) (boundaryPattern B) j) with hb2 | hb2
        case inr => exact hb2
        case inl =>
          exfalso
          have hle := seqMatchAt_true_le hbbne hb2
          rw [List.length_append, show ([45, 45] : List Nat).length = 2 from rfl] at hle
          omega
      rw [hnone]
      simp
  | cons p ps' ih =>
    intro pre acc fuel hwf hocc hfuel
    cases fuel with
    | zero => exact absurd hfuel (Nat.not_lt_zero _)
    | succ f =>
      rw [show encodeRest (boundaryPattern B) (p :: ps') =
        13 :: 10 :: ((encodeBlockBytes p ++ boundaryPattern B) ++
          encodeRest (boundaryPattern B) ps') from rfl]
      have hD1 : pre ++ 13 :: 10 :: ((encodeBlockBytes p ++ boundaryPattern B) ++
          encodeRest (boundaryPattern B) ps') =
          (pre ++ [13, 10]) ++ ((encodeBlockBytes p ++ boundaryPattern B) ++
            encodeRest (boundaryPattern B) ps') := by
        simp
      have hD2 : pre ++ 13 :: 10 :: ((encodeBlockBytes p ++ boundaryPattern B) ++
          encodeRest (boundaryPattern B) ps') =
          ((pre ++ [13, 10]) ++ encodeBlockBytes p) ++
            (boundaryPattern B ++ encodeRest (boundaryPattern B) ps') := by
        simp
      have hD3 : pre ++ 13 :: 10 :: ((encodeBlockBytes p ++ boundaryPattern B) ++
          encodeRest (boundaryPattern B) ps') =
          (((pre ++ [13, 10]) ++ encodeBlockBytes p) ++ boundaryPattern B) ++
            encodeRest (boundaryPattern B) ps' := by
        simp
      have hlp2 : (pre ++ [13, 10]).length = pre.length + 2 := by simp
      have hlen2 : ((pre ++ [13, 10]) ++ encodeBlockBytes p).length =
          pre.length + 2 + (encodeBlockBytes p).length := by
        simp
        omega
      have hlen3 : ((((pre ++ [13, 10]) ++ encodeBlockBytes p) ++ boundaryPattern B)).length =
          pre.length + 2 + (encodeBlockBytes p).length + (boundaryPattern B).length := by
        simp
        omega
      rw [partsLoopFuel_succ]
      rw [if_pos (by
        simp only [List.length_append, List.length_cons]
        omega)]
      have hsk : skipPos (pre ++ 13 :: 10 :: ((encodeBlockBytes p ++ boundaryPattern B) ++
          encodeRest (boundaryPattern B) ps')) pre.length = pre.length + 2 := by
        unfold skipPos
        rw [if_pos]
        constructor
        · simpa using getD_append_right pre
            (13 :: 10 :: ((encodeBlockBytes p ++ boundaryPattern B) ++
              encodeRest (boundaryPattern B) ps')) 0
        · simpa using getD_append_right pre
            (13 :: 10 :: ((encodeBlockBytes p ++ boundaryPattern B) ++
              encodeRest (boundaryPattern B) ps')) 1
      rw [hsk]
      have hfind : findSequence (pre ++ 13 :: 10 :: ((encodeBlockBytes p ++ boundaryPattern B) ++
          encodeRest (boundaryPattern B) ps')) (boundaryPattern B) (pre.length + 2) =
          some (pre.length + 2 + (encodeBlockBytes p).length) := by
        apply findSequence_intro hbbne
        · rw [hD2, ← hlen2]
          exact seqMatchAt_here ((pre ++ [13, 10]) ++ encodeBlockBytes p)
            (encodeRest (boundaryPattern B) ps') (boundaryPattern B)
        · omega
        · intro j hj1 hj2
          obtain ⟨k, rfl⟩ : ∃ k, j = (pre ++ [13, 10]).length + k :=
            ⟨j - (pre ++ [13, 10]).length, by rw [hlp2]; omega⟩
          rw [hlp2] at hj2
          have hkE : k < (encodeBlockBytes p).length := by omega
          rw [hD1, seqMatchAt_shift]
          rw [seqMatchAt_confine (by
            rw [List.length_append]
            omega)]
          exact hocc p (List.mem_cons_self p ps') k hkE
      rw [hfind]
      dsimp only
      have hpart : ((pre ++ 13 :: 10 :: ((encodeBlockBytes p ++ boundaryPattern B) ++
          encodeRest (boundaryPattern B) ps')).take
            (pre.length + 2 + (encodeBlockBytes p).length)).drop (pre.length + 2) =
          encodeBlockBytes p := by
        rw [hD2, List.take_left' hlen2, ← hlp2]
        exact List.drop_left _ _
      rw [hpart, parsePart_encodeBlock p (hwf p (List.mem_cons_self p ps'))]
      rw [show pushPart (some (expectedPart p)) acc = expectedPart p :: acc from rfl]
      have hg0 : (pre ++ 13 :: 10 :: ((encodeBlockBytes p ++ boundaryPattern B) ++
          encodeRest (boundaryPattern B) ps')).getD
            (pre.length + 2 + (encodeBlockBytes p).length + (boundaryPattern B).length) 0 =
          (encodeRest (boundaryPattern B) ps').getD 0 0 := by
        have h := getD_append_right (((pre ++ [13, 10]) ++ encodeBlockBytes p) ++
          boundaryPattern B) (encodeRest (boundaryPattern B) ps') 0
        rw [hlen3] at h
        rw [hD3]
        simpa using h
      have hg1 : (pre ++ 13 :: 10 :: ((encodeBlockBytes p ++ boundaryPattern B) ++
          encodeRest (boundaryPattern B) ps')).getD
            (pre.length + 2 + (encodeBlockBytes p).length + (boundaryPattern B).length + 1) 0 =
          (encodeRest (boundaryPattern B) ps').getD 1 0 := by
        have h := getD_append_right (((pre ++ [13, 10]) ++ encodeBlockBytes p) ++
          boundaryPattern B) (encodeRest (boundaryPattern B) ps') 1
        rw [hlen3] at h
        rw [hD3]
        exact h
      cases ps' with
      | nil =>
        rw [if_pos ⟨by rw [hg0]; rfl, by rw [hg1]; rfl⟩]
        simp
      | cons q qs =>
        rw [if_neg (by
          intro hand
          rw [hg0] at hand
          rw [show (encodeRest (boundaryPattern B) (q :: qs)).getD 0 0 = 13 from rfl] at hand
          exact absurd hand.1 (by decide))]
        rw [hD3, ← hlen3]
        rw [ih (((pre ++ [13, 10]) ++ encodeBlockBytes p) ++ boundaryPattern B)
          (expectedPart p :: acc) f
          (fun x hx => hwf x (List.mem_cons_of_mem p hx))
          (fun x hx => hocc x (List.mem_cons_of_mem p hx))
          (by rw [List.length_cons] at hfuel; omega)]
        simp

/-! ### Claim C1 -/

/-- Counterexample to claim C1 as stated: the tuple with field name
filename= and filename f, encoded into a well-formed body with boundary
b, is not reproduced by the parser — the filename attribute regex
matches inside the name attribute and captures the text ; filename=
instead of f. -/
theorem c1_counterexample :
    parseMultipartParts
        (encodeBody ['b'] [⟨"filename=".toList, some ['f'], none, []⟩]) ['b'] ≠
      ([⟨"filename=".toList, some ['f'], none, []⟩] : List RawPart).map expectedPart := by
  decide

/-- Amended claim C1: the round-trip holds for every sequence of tuples
whose names and filenames are nonempty and free of quote, CR and LF (a
name moreover not ending in the text filename=), whose content types
are nonempty, CR-LF-free and trim-invariant, and whose encoded blocks
do not contain the boundary pattern: parsing the encoded body with
boundary B returns exactly the original tuples, in order, with
byte-exact payloads. -/
theorem c1_roundtrip_amended (B : List Char) (ps : List RawPart) (hB : B ≠ [])
    (hwf : ∀ p ∈ ps, wellFormedRawPart p = true)
    (hocc : ∀ p ∈ ps, ∀ j < (encodeBlockBytes p).length,
      seqMatchAt (encodeBlockBytes p ++ boundaryPattern B) (boundaryPattern B) j = false) :
    parseMultipartParts (encodeBody B ps) B = ps.map expectedPart := by
  have hbbne : utf8Encode ('-' :: '-' :: B) ≠ [] :=
    utf8Encode_ne_nil (by simp)
  have hfirst : findSequence (encodeBody B ps) (utf8Encode ('-' :: '-' :: B)) 0 = some 0 := by
    apply findSequence_intro hbbne ?_ (Nat.le_refl 0)
      (fun j h0 hj => absurd hj (Nat.not_lt_zero j))
    exact seqMatchAt_here ([] : List Nat) (encodeRest (boundaryPattern B) ps)
      (boundaryPattern B)
  simp only [parseMultipartParts, findBoundary]
  rw [hfirst]
  dsimp only
  rw [Nat.zero_add]
  rw [show utf8Encode ('-' :: '-' :: B) = boundaryPattern B from rfl]
  rw [show encodeBody B ps = boundaryPattern B ++ encodeRest (boundaryPattern B) ps from rfl]
  rw [partsLoop_encodeRest B hB ps (boundaryPattern B) [] _ hwf hocc (by
    have h1 := encodeRest_length (boundaryPattern B) ps
    rw [List.length_append]
    omega)]
  rfl

/-- Witness for the amended C1: a two-tuple form (a plain field and a
file with declared content type) round-trips through encoding and
parsing at boundary bnd. -/
theorem c1_roundtrip_amended_witness :
    (['b', 'n', 'd'] : List Char) ≠ [] ∧
    (∀ p ∈ ([⟨['a'], none, none, [104, 105]⟩,
        ⟨['f'], some "e.bin".toList, some "text/plain".toList, [1, 2, 3]⟩] : List RawPart),
      wellFormedRawPart p = true) ∧
    (∀ p ∈ ([⟨['a'], none, none, [104, 105]⟩,
        ⟨['f'], some "e.bin".toList, some "text/plain".toList, [1, 2, 3]⟩] : List RawPart),
      ∀ j < (encodeBlockBytes p).length,
        seqMatchAt (encodeBlockBytes p ++ boundaryPattern ['b', 'n', 'd'])
          (boundaryPattern ['b', 'n', 'd']) j = false) ∧
    parseMultipartParts
        (encodeBody ['b', 'n', 'd']
          [⟨['a'], none, none, [104, 105]⟩,
           ⟨['f'], some "e.bin".toList, some "text/plain".toList, [1, 2, 3]⟩])
        ['b', 'n', 'd'] =
      ([⟨['a'], none, none, [104, 105]⟩,
        ⟨['f'], some "e.bin".toList, some "text/plain".toList, [1, 2, 3]⟩] : List RawPart).map
        expectedPart :=
  ⟨by decide, by decide, by decide,
    c1_roundtrip_amended ['b', 'n', 'd']
      [⟨['a'], none, none, [104, 105]⟩,
       ⟨['f'], some "e.bin".toList, some "text/plain".toList, [1, 2, 3]⟩]
      (by decide) (by decide) (by decide)⟩

/-! ### Claim C10 -/

/-- Claim C10: a part whose Content-Disposition carries an empty quoted
filename attribute is not recognised as a file part — the filename
capture requires at least one character between the quotes — so the
part is emitted with filename none, and the FormData construction turns
it into a plain string field holding the UTF-8 decoded payload rather
than a file. -/
theorem c10_empty_filename_is_field (N : List Char) (payload : List Nat)
    (hN : N ≠ []) (hNq : '"' ∉ N) (hNr : '\r' ∉ N) (hNn : '\n' ∉ N)
    (hsfx : ¬("filename=".toList <:+ N)) :
    parsePart (encodeBlockBytes ⟨N, some [], none, payload⟩) =
      some { name := N, filename := none, contentType := none, data := payload } ∧
    buildFormData [{ name := N, filename := none, contentType := none, data := payload }] =
      [FormEntry.field N (utf8Decode payload)] := by
  refine ⟨?_, rfl⟩
  have hdchars : ∀ c ∈ dispLine ⟨N, some [], none, payload⟩, c ≠ '\n' ∧ c ≠ '\r' :=
    dispLine_chars _ hNr hNn (fun fn h => by
      injection h with e
      subst e
      exact ⟨by simp, by simp⟩)
  have hfind : findSequence (encodeBlockBytes ⟨N, some [], none, payload⟩) [13, 10, 13, 10] 0 =
      some (utf8Encode (headerBlock ⟨N, some [], none, payload⟩)).length := by
    have hhb : headerBlock ⟨N, some [], none, payload⟩ =
        dispLine ⟨N, some [], none, payload⟩ := by
      unfold headerBlock
      dsimp only
      exact List.append_nil _
    unfold encodeBlockBytes
    rw [hhb]
    exact findSeq_crlf4_of_clean
      (utf8Encode_no_crlf (fun c hc => ⟨(hdchars c hc).2, (hdchars c hc).1⟩))
  have htake : (encodeBlockBytes ⟨N, some [], none, payload⟩).take
      (utf8Encode (headerBlock ⟨N, some [], none, payload⟩)).length =
      utf8Encode (headerBlock ⟨N, some [], none, payload⟩) := by
    unfold encodeBlockBytes
    exact List.take_left _ _
  have hdrop : (encodeBlockBytes ⟨N, some [], none, payload⟩).drop
      ((utf8Encode (headerBlock ⟨N, some [], none, payload⟩)).length + 4) =
      payload ++ [13, 10] := by
    unfold encodeBlockBytes
    rw [List.drop_append]
    rfl
  have hdv : dispValue ⟨N, some [], none, payload⟩ =
      ("form-data; name=\"".toList : List Char) ++
        (N ++ '"' :: (("; filename=\"".toList : List Char) ++ ['"'])) := rfl
  have hname : jsMatchCapture ("name=\"".toList)
      (dispValue ⟨N, some [], none, payload⟩) = some N := by
    rw [hdv]
    exact jsMatchCapture_name N _ hN hNq
  have hfile : jsMatchCapture ("filename=\"".toList)
      (dispValue ⟨N, some [], none, payload⟩) = none := by
    rw [hdv]
    exact jsMatchCapture_filename_eq_empty N hNq hsfx
  unfold parsePart
  rw [hfind]
  dsimp only
  rw [htake, hdrop, utf8Decode_headerBlock, takeContentEnd_eq_strip,
    stripTrailingCRLF_append_crlf]
  rw [parseHeaders_headerBlock_none _ rfl (fun c hc => (hdchars c hc).1)]
  rw [objGet_one_hit _ _ _ (by decide)]
  dsimp only
  rw [if_neg (dispValue_ne_nil _), hname, hfile, objGet_one_miss _ _ _ (by decide)]
  rfl

/-- Witness for C10: the field x with filename set to the empty quoted
string and payload hi is parsed as a plain field, exhibited by the
theorem at that concrete input. -/
theorem c10_empty_filename_is_field_witness :
    (['x'] : List Char) ≠ [] ∧ '"' ∉ (['x'] : List Char) ∧ '\r' ∉ (['x'] : List Char) ∧
    '\n' ∉ (['x'] : List Char) ∧ ¬("filename=".toList <:+ (['x'] : List Char)) ∧
    (parsePart (encodeBlockBytes ⟨['x'], some [], none, [104, 105]⟩) =
        some { name := ['x'], filename := none, contentType := none, data := [104, 105] } ∧
      buildFormData
          [{ name := ['x'], filename := none, contentType := none, data := [104, 105] }] =
        [FormEntry.field ['x'] (utf8Decode [104, 105])]) :=
  ⟨by decide, by decide, by decide, by decide, by decide,
    c10_empty_filename_is_field ['x'] [104, 105]
      (by decide) (by decide) (by decide) (by decide) (by decide)⟩

end Multipart
